import Mathlib

/-!
Verification development for the `cpp-spreadsheet` engine.

This file shallowly embeds the spreadsheet engine (`sheet.cpp`, `cell.cpp`,
`formula.cpp`) in Lean 4.  The data model follows the source:

* `Pos` models `Position` (`{row, col}` over machine `int`, with the
  validity predicate from `common.h`: `0 ≤ row < 16384`, `0 ≤ col < 16384`).
* `Cell` models `Cell` with its three impl variants (`EmptyImpl`,
  `TextImpl`, `FormulaImpl` with its `std::optional` value cache).
* `SheetState` models `Sheet`: the cell map
  `std::unordered_map<Position, std::unique_ptr<Cell>>` (an entry can hold a
  null pointer after `ClearCell`), the dependency graph
  (`Position → Node` where `Node` is a set of dependent positions), and the
  `PrintableArea` (two key→count maps).
* IEEE doubles are modelled as `OD := Option ℚ`: `some q` is a finite value,
  `none` stands for a non-finite double (`inf`/`NaN`).  Arithmetic on the
  non-finite marker is absorbing, which matches the way non-finite values
  flow through this program (they are converted to `#DIV/0!` at every
  boundary and never re-enter arithmetic as operands).
* Functions whose C++ termination rests on acyclicity of the reference
  graph (`CheckCircularDependency`, `InvalidateCache`, recursive formula
  evaluation) take an explicit fuel argument; the fuel used by the engine
  (`cells.length + 1`) is proved sufficient where a claim needs it.
-/

/-- Evaluation error categories, from `FormulaError::Category` in `common.h`
(`Ref`, `Value`, `Div0`). -/
inductive FError where
  | Ref
  | Value
  | Div0
deriving DecidableEq, Repr

/-- Model of a C++ `double` as it flows through this program: `some q` is a
finite value, `none` a non-finite one (`inf`/`NaN`). -/
abbrev OD := Option ℚ

/-- Grid coordinate, from `Position` in `common.h`: a pair of machine `int`s. -/
structure Pos where
  row : Int
  col : Int
deriving DecidableEq, Repr

/-- Modelled from the spec: `Position::IsValid()` lives in the course-provided
`common.cpp`, which is not under `src/`.  The spec (section 3) fixes it as
`0 ≤ row < MAX_ROWS` and `0 ≤ col < MAX_COLS` with bounds 16384 × 16384. -/
def Pos.isValid (p : Pos) : Bool :=
  0 ≤ p.row && p.row < 16384 && 0 ≤ p.col && p.col < 16384

/-- Computed cell value, from `CellInterface::Value =
std::variant<std::string, double, FormulaError>`. -/
inductive CVal where
  | text (s : String)
  | num (d : OD)
  | err (e : FError)
deriving DecidableEq, Repr

/-- Formula syntax tree, from the course `FormulaAST` (literals, cell
references, the four binary operators and unary minus of the grammar). -/
inductive Expr where
  | num (q : ℚ)
  | cell (p : Pos)
  | add (a b : Expr)
  | sub (a b : Expr)
  | mul (a b : Expr)
  | div (a b : Expr)
  | neg (a : Expr)
deriving DecidableEq, Repr

/-- Addition on modelled doubles; a non-finite operand gives a non-finite
result. -/
def dAdd : OD → OD → OD
  | some x, some y => some (x + y)
  | _, _ => none

/-- Subtraction on modelled doubles. -/
def dSub : OD → OD → OD
  | some x, some y => some (x - y)
  | _, _ => none

/-- Multiplication on modelled doubles. -/
def dMul : OD → OD → OD
  | some x, some y => some (x * y)
  | _, _ => none

/-- Division on modelled doubles; division by zero yields the non-finite
marker (IEEE `x/0` is `±inf` or `NaN`). -/
def dDiv : OD → OD → OD
  | some x, some y => if y = 0 then none else some (x / y)
  | _, _ => none

/-- Negation on modelled doubles. -/
def dNeg : OD → OD
  | some x => some (-x)
  | none => none

/-- Cell positions occurring in a formula, in syntactic (in-order) traversal
order: the raw references the `FormulaAST` constructor collects while
walking the parse tree. -/
def astCellsRaw : Expr → List Pos
  | .num _ => []
  | .cell p => [p]
  | .add a b => astCellsRaw a ++ astCellsRaw b
  | .sub a b => astCellsRaw a ++ astCellsRaw b
  | .mul a b => astCellsRaw a ++ astCellsRaw b
  | .div a b => astCellsRaw a ++ astCellsRaw b
  | .neg a => astCellsRaw a

/-- Modelled from the spec: `Position::operator<` of the course `common.cpp`
(not under `src/`) compares `(row, col)` lexicographically; this is its
reflexive closure, the sorting relation of the `FormulaAST` cell list. -/
def posLe (p q : Pos) : Prop :=
  p.row < q.row ∨ (p.row = q.row ∧ p.col ≤ q.col)

instance : DecidableRel posLe :=
  fun p q => inferInstanceAs (Decidable (p.row < q.row ∨ (p.row = q.row ∧ p.col ≤ q.col)))

instance : IsTotal Pos posLe :=
  ⟨by intro a b; unfold posLe; omega⟩

instance : IsTrans Pos posLe :=
  ⟨by intro a b c; unfold posLe; omega⟩

/-- Modelled from the spec: the cell list of the framework-provided
`FormulaAST` (not under `src/`), whose constructor sorts the collected
references (`cells_.sort()` under `Position::operator<`) before
`FormulaAST::GetCells` hands the list to `Formula::GetReferencedCells`;
duplicates survive the sort and are removed only by the caller's dedup
loop. -/
def astCells (e : Expr) : List Pos :=
  List.insertionSort posLe (astCellsRaw e)

/-- Loop body of the deduplication in `Formula::GetReferencedCells`:
`last` is the element currently at `result.back()`; an element equal to it
is dropped, a different one is pushed and becomes the new back. -/
def dedupAux (last : Pos) : List Pos → List Pos
  | [] => [last]
  | y :: ys => if y = last then dedupAux last ys else last :: dedupAux y ys

/-- The deduplication loop of `Formula::GetReferencedCells`
(`formula.cpp`): push the first element, then push each further element
that differs from the last pushed one.  This collapses runs of adjacent
equal positions only. -/
def dedupAdjacent : List Pos → List Pos
  | [] => []
  | x :: xs => dedupAux x xs

/-- Numeric value of a digit string. -/
def digitsVal (l : List Char) : Nat :=
  l.foldl (fun a c => a * 10 + (c.toNat - 48)) 0

/-- Token of the formula grammar (course ANTLR grammar: numbers, cell
references `[A-Z]+[0-9]+`, the four operators, parentheses). -/
inductive Tok where
  | num (q : ℚ)
  | cellRef (p : Pos)
  | plus
  | minus
  | star
  | slash
  | lpar
  | rpar
deriving DecidableEq, Repr

/-- Modelled from the spec: the formula parser is an external collaborator
(spec section 1 and 6.2; the ANTLR-generated lexer is not under `src/`).
Lexes an expression into tokens; a cell reference with an invalid position
makes the whole lex fail, modelling the parser rejecting out-of-grid
references (spec section 9). -/
def tokenizeF : Nat → List Char → Option (List Tok)
  | _, [] => some []
  | 0, _ :: _ => none
  | f + 1, c :: cs =>
    if c = ' ' then tokenizeF f cs
    else if c = '+' then (tokenizeF f cs).map (Tok.plus :: ·)
    else if c = '-' then (tokenizeF f cs).map (Tok.minus :: ·)
    else if c = '*' then (tokenizeF f cs).map (Tok.star :: ·)
    else if c = '/' then (tokenizeF f cs).map (Tok.slash :: ·)
    else if c = '(' then (tokenizeF f cs).map (Tok.lpar :: ·)
    else if c = ')' then (tokenizeF f cs).map (Tok.rpar :: ·)
    else if c.isUpper then
      let ls := (c :: cs).takeWhile Char.isUpper
      let rest := (c :: cs).dropWhile Char.isUpper
      let ds := rest.takeWhile Char.isDigit
      let rest2 := rest.dropWhile Char.isDigit
      if ds = [] then none
      else
        let col : Nat := ls.foldl (fun a ch => a * 26 + (ch.toNat - 64)) 0
        let p : Pos := ⟨(digitsVal ds : Int) - 1, (col : Int) - 1⟩
        if p.isValid then (tokenizeF f rest2).map (Tok.cellRef p :: ·) else none
    else if c.isDigit then
      let ds := (c :: cs).takeWhile Char.isDigit
      let rest := (c :: cs).dropWhile Char.isDigit
      match rest with
      | '.' :: r2 =>
        let fs := r2.takeWhile Char.isDigit
        let rest3 := r2.dropWhile Char.isDigit
        if fs = [] then none
        else
          let q : ℚ := (digitsVal ds : ℚ) + (digitsVal fs : ℚ) / ((10 : ℚ) ^ fs.length)
          (tokenizeF f rest3).map (Tok.num q :: ·)
      | _ => (tokenizeF f rest).map (Tok.num (digitsVal ds : ℚ) :: ·)
    else none

mutual

/-- Modelled from the spec: recursive-descent parser for the external
formula grammar — `factor` level (number, cell, parenthesised expression,
unary sign; unary `+` is numerically the identity). -/
def pFactor : Nat → List Tok → Option (Expr × List Tok)
  | 0, _ => none
  | f + 1, toks =>
    match toks with
    | .num q :: r => some (.num q, r)
    | .cellRef p :: r => some (.cell p, r)
    | .lpar :: r =>
      match pExpr f r with
      | some (e, .rpar :: r2) => some (e, r2)
      | _ => none
    | .minus :: r => (pFactor f r).map (fun er => (.neg er.1, er.2))
    | .plus :: r => pFactor f r
    | _ => none

/-- Left-associative `* /` chain continuation. -/
def pTermLoop : Nat → Expr → List Tok → Option (Expr × List Tok)
  | 0, _, _ => none
  | f + 1, acc, toks =>
    match toks with
    | .star :: r =>
      match pFactor f r with
      | some (e, r2) => pTermLoop f (.mul acc e) r2
      | none => none
    | .slash :: r =>
      match pFactor f r with
      | some (e, r2) => pTermLoop f (.div acc e) r2
      | none => none
    | _ => some (acc, toks)

/-- `term` level of the grammar. -/
def pTerm : Nat → List Tok → Option (Expr × List Tok)
  | 0, _ => none
  | f + 1, toks =>
    match pFactor f toks with
    | some (e, r) => pTermLoop f e r
    | none => none

/-- Left-associative `+ -` chain continuation. -/
def pExprLoop : Nat → Expr → List Tok → Option (Expr × List Tok)
  | 0, _, _ => none
  | f + 1, acc, toks =>
    match toks with
    | .plus :: r =>
      match pTerm f r with
      | some (e, r2) => pExprLoop f (.add acc e) r2
      | none => none
    | .minus :: r =>
      match pTerm f r with
      | some (e, r2) => pExprLoop f (.sub acc e) r2
      | none => none
    | _ => some (acc, toks)

/-- `expr` level of the grammar. -/
def pExpr : Nat → List Tok → Option (Expr × List Tok)
  | 0, _ => none
  | f + 1, toks =>
    match pTerm f toks with
    | some (e, r) => pExprLoop f e r
    | none => none

end

/-- Modelled from the spec: `ParseFormulaAST` (external collaborator).
Returns `none` where the C++ parser throws, which `ParseFormula` in
`formula.cpp` converts to `FormulaException`. -/
def parseFormulaAST (s : String) : Option Expr :=
  match tokenizeF (s.length + 1) s.data with
  | none => none
  | some [] => none
  | some toks =>
    match pExpr ((toks.length + 1) * 4) toks with
    | some (e, []) => some e
    | _ => none

/-- Stored cell content, from `Cell` in `cell.cpp`: the three impl variants.
The formula variant carries the `mutable Cache cache_ = std::optional<Value>`
of `FormulaImpl`. -/
inductive Cell where
  | empty
  | text (t : String)
  | formula (ast : Expr) (cache : Option CVal)
deriving DecidableEq, Repr

/-- `Cell::IsEmpty()`: true exactly for the `EmptyImpl` variant. -/
def Cell.isEmpty : Cell → Bool
  | .empty => true
  | _ => false

/-- `Cell::GetReferencedCells()`: empty for Empty/Text impls, the
adjacent-deduplicated AST cell list for formulas
(`Formula::GetReferencedCells`). -/
def Cell.refs : Cell → List Pos
  | .formula ast _ => dedupAdjacent (astCells ast)
  | _ => []

/-- Escape handling of `TextImpl::GetValue`: a leading `ESCAPE_SIGN`
(apostrophe) is consumed. -/
def escapeStrip (t : String) : String :=
  match t.data with
  | c :: rest => if c = '\'' then String.mk rest else t
  | [] => t

/-- Modelled from the spec: bijective base-26 column letters of
`Position::ToString` (course `common.cpp`, not under `src/`). -/
def colNameN : Nat → Nat → String
  | 0, _ => ""
  | f + 1, c =>
    (if c < 26 then "" else colNameN f (c / 26 - 1)) ++ String.mk [Char.ofNat (65 + c % 26)]

/-- Modelled from the spec: textual form `A1`, `B2`, ... of a position. -/
def posToString (p : Pos) : String :=
  colNameN 8 p.col.toNat ++ toString (p.row + 1)

/-- Modelled from the spec: `FormulaAST::PrintFormula` is external; printed
form of an expression (parenthesised infix). -/
def exprToString : Expr → String
  | .num q => toString q
  | .cell p => posToString p
  | .add a b => "(" ++ exprToString a ++ "+" ++ exprToString b ++ ")"
  | .sub a b => "(" ++ exprToString a ++ "-" ++ exprToString b ++ ")"
  | .mul a b => "(" ++ exprToString a ++ "*" ++ exprToString b ++ ")"
  | .div a b => "(" ++ exprToString a ++ "/" ++ exprToString b ++ ")"
  | .neg a => "(-" ++ exprToString a ++ ")"

/-- `Cell::GetText()`: `""` for Empty, the raw text for Text (escape
preserved), `"=" + expression` for formulas. -/
def Cell.getText : Cell → String
  | .empty => ""
  | .text t => t
  | .formula ast _ => "=" ++ exprToString ast

/-- The `Cell::Set` formula test: `text[0] == FORMULA_SIGN && text.size() > 1`. -/
def isFormulaText (t : String) : Bool :=
  match t.data with
  | c :: _ :: _ => c = '='
  | _ => false

/-- `Cell::Set` (`cell.cpp`): empty text gives an Empty impl; text starting
with `FORMULA_SIGN` of size > 1 is parsed as a formula (`none` models the
thrown `FormulaException`); everything else is stored as raw text. -/
def mkCell (t : String) : Option Cell :=
  if t = "" then some .empty
  else if isFormulaText t then
    match parseFormulaAST (t.drop 1) with
    | some ast => some (.formula ast none)
    | none => none
  else some (.text t)

/-- First-binding lookup in an association list, modelling
`std::unordered_map::count/at`. -/
def assocGet {α β : Type} [DecidableEq α] : List (α × β) → α → Option β
  | [], _ => none
  | (k, v) :: t, a => if k = a then some v else assocGet t a

/-- In-place update/insert, modelling `map[k] = v` (insert keeps key sets
and replaces the first binding when present). -/
def assocSet {α β : Type} [DecidableEq α] : List (α × β) → α → β → List (α × β)
  | [], a, b => [(a, b)]
  | (k, v) :: t, a, b => if k = a then (a, b) :: t else (k, v) :: assocSet t a b

/-- Erase the first binding of a key, modelling `map.erase(k)`. -/
def assocErase {α β : Type} [DecidableEq α] : List (α × β) → α → List (α × β)
  | [], _ => []
  | (k, v) :: t, a => if k = a then t else (k, v) :: assocErase t a

/-- State of `Sheet::PrintableArea`: the two ordered key→count maps
`row_index_count` and `col_index_count`. -/
structure AreaState where
  rows : List (Int × Nat)
  cols : List (Int × Nat)
deriving DecidableEq, Repr

/-- `Size` from `common.h`. -/
structure GridSize where
  rows : Int
  cols : Int
deriving DecidableEq, Repr

/-- The whole `Sheet` state: `sheet_` (an entry holding `none` models a
present `unique_ptr` that is null after `ClearCell`), `dependency_graph_`
(each node's dependent-cell set as a list), and `area_`. -/
structure SheetState where
  cells : List (Pos × Option Cell)
  deps : List (Pos × List Pos)
  area : AreaState
deriving DecidableEq, Repr

/-- The empty sheet produced by `CreateSheet()`. -/
def sheetEmpty : SheetState := ⟨[], [], ⟨[], []⟩⟩

/-- Lookup in the cell map: `none` = no entry, `some none` = entry holding a
null pointer, `some (some c)` = entry holding cell `c`. -/
def cellsGet (s : SheetState) (p : Pos) : Option (Option Cell) :=
  assocGet s.cells p

/-- Write-through to the cell map (`sheet_[pos] = ...`). -/
def cellsSet (s : SheetState) (p : Pos) (oc : Option Cell) : SheetState :=
  { s with cells := assocSet s.cells p oc }

/-- Dependent set of a dependency-graph node (`Node::GetDependent`), empty
when the node does not exist. -/
def depsGet (s : SheetState) (p : Pos) : List Pos :=
  (assocGet s.deps p).getD []

/-- `dependency_graph_[p].AddDependent(pos)` — `unordered_set::insert`. -/
def addDep (s : SheetState) (p pos : Pos) : SheetState :=
  let node := depsGet s p
  { s with deps := assocSet s.deps p (if pos ∈ node then node else pos :: node) }

/-- `dependency_graph_[p].RemoveDependent(pos)` — `unordered_set::erase`. -/
def removeDep (s : SheetState) (p pos : Pos) : SheetState :=
  { s with deps := assocSet s.deps p ((depsGet s p).erase pos) }

/-- `Sheet::AddDependencies`: record `pos` as a dependent of every position
the cell references. -/
def addDependencies (s : SheetState) (pos : Pos) (c : Cell) : SheetState :=
  c.refs.foldl (fun s p => addDep s p pos) s

/-- `Sheet::RemoveDependencies`. -/
def removeDependencies (s : SheetState) (pos : Pos) (c : Cell) : SheetState :=
  c.refs.foldl (fun s p => removeDep s p pos) s

/-- `Sheet::MakeEmptyDependentCells`: give every referenced position a
stored cell, inserting an Empty placeholder where the entry is missing or
holds a null pointer. -/
def makeEmptyDependentCells (s : SheetState) (c : Cell) : SheetState :=
  c.refs.foldl
    (fun s p =>
      match cellsGet s p with
      | some (some _) => s
      | _ => cellsSet s p (some .empty))
    s

/-- `Cell::InvalidateCellCache` at a position: clears the cache of a formula
cell, does nothing for Empty/Text impls (and for missing/null entries, which
the code's assertion excludes). -/
def clearCacheAt (s : SheetState) (p : Pos) : SheetState :=
  match cellsGet s p with
  | some (some (.formula ast _)) => cellsSet s p (some (.formula ast none))
  | _ => s

/-- Store a freshly computed value in a formula cell's cache
(`cache_ = ...` in `FormulaImpl::GetValue`). -/
def setCacheAt (s : SheetState) (p : Pos) (v : CVal) : SheetState :=
  match cellsGet s p with
  | some (some (.formula ast _)) => cellsSet s p (some (.formula ast (some v)))
  | _ => s

/-- `Sheet::InvalidateCache` (`sheet.cpp`): depth-first over the dependency
graph, recursing into each dependent before clearing its cell cache.  The
C++ recursion terminates by acyclicity; the model uses fuel, which changes
nothing observable since the function only clears caches. -/
def invalidateCache : Nat → SheetState → Pos → SheetState
  | 0, s, _ => s
  | f + 1, s, p =>
    (depsGet s p).foldl (fun s q => clearCacheAt (invalidateCache f s q) q) s

/-- Unsigned decimal numeral (with optional fraction) of `parseDouble`. -/
def parseDigitsQ (l : List Char) : Option ℚ :=
  let ds := l.takeWhile Char.isDigit
  let rest := l.dropWhile Char.isDigit
  if ds = [] then none
  else
    match rest with
    | [] => some (digitsVal ds : ℚ)
    | '.' :: r2 =>
      let fs := r2.takeWhile Char.isDigit
      let rest3 := r2.dropWhile Char.isDigit
      if fs = [] then none
      else if rest3 = [] then
        some ((digitsVal ds : ℚ) + (digitsVal fs : ℚ) / ((10 : ℚ) ^ fs.length))
      else none
    | _ => none

/-- Modelled from the spec: `std::istringstream >> double && eof` on the
cell's value string (standard-library behaviour, external to `src/`);
accepts an optionally signed decimal numeral, with an optional fractional
part and no trailing characters. -/
def parseDouble (t : String) : Option ℚ :=
  match t.data with
  | '-' :: rest => (parseDigitsQ rest).map Neg.neg
  | '+' :: rest => parseDigitsQ rest
  | rest => parseDigitsQ rest

/-- The value-inspection part of the lookup lambda in `Formula::Evaluate`
(`formula.cpp`): a string is the empty string (0.0), a parsed finite number,
or `#VALUE!`; a double contributes itself when finite and `#DIV/0!`
otherwise; a stored `FormulaError` is rethrown. -/
def lookupConvert (v : CVal) : Except FError OD :=
  match v with
  | .text str =>
    if str = "" then .ok (some 0)
    else
      match parseDouble str with
      | some q => .ok (some q)
      | none => .error .Value
  | .num (some q) => .ok (some q)
  | .num none => .error .Div0
  | .err e => .error e

/-- Sequencing of `FormulaAST::Execute` for a binary operator: evaluate the
left operand; unless it threw, evaluate the right operand in the resulting
state; unless it threw, apply the operator. -/
def execStep2 (g : OD → OD → OD) (ra : (Except FError OD) × SheetState)
    (kb : SheetState → (Except FError OD) × SheetState) :
    (Except FError OD) × SheetState :=
  match ra with
  | (.error e, s1) => (.error e, s1)
  | (.ok x, s1) =>
    match kb s1 with
    | (.error e, s2) => (.error e, s2)
    | (.ok y, s2) => (.ok (g x y), s2)

/-- `FormulaAST::Execute` with an explicit lookup callback: evaluates the
tree in double arithmetic, short-circuiting on a thrown `FormulaError`,
threading the sheet state mutated by cache fills in referenced cells. -/
def execExpr (lk : SheetState → Pos → (Except FError OD) × SheetState) :
    SheetState → Expr → (Except FError OD) × SheetState
  | s, .num q => (.ok (some q), s)
  | s, .cell p => lk s p
  | s, .add a b => execStep2 dAdd (execExpr lk s a) (fun s1 => execExpr lk s1 b)
  | s, .sub a b => execStep2 dSub (execExpr lk s a) (fun s1 => execExpr lk s1 b)
  | s, .mul a b => execStep2 dMul (execExpr lk s a) (fun s1 => execExpr lk s1 b)
  | s, .div a b => execStep2 dDiv (execExpr lk s a) (fun s1 => execExpr lk s1 b)
  | s, .neg a =>
    match execExpr lk s a with
    | (.error e, s1) => (.error e, s1)
    | (.ok x, s1) => (.ok (dNeg x), s1)

/-- Convert the result of `FormulaAST::Execute` to `Formula::Evaluate`'s
return value (`formula.cpp`): a caught `FormulaError` is returned as is,
a non-finite result becomes `#DIV/0!`, a finite number is returned. -/
def evalOutcome : Except FError OD → CVal
  | .ok (some q) => .num (some q)
  | .ok none => .err .Div0
  | .error e => .err e

/-- `Cell::GetValue` on the cell stored at `p` (`cell.cpp`): Empty yields
`Text ""`, Text yields the escape-stripped raw string, a formula returns its
cached value or evaluates `Formula::Evaluate` against the sheet and caches
the result.  The fuel bounds the depth of the reference chain; the C++
recursion terminates by acyclicity of the reference graph. -/
def cellValue : Nat → SheetState → Pos → Cell → CVal × SheetState
  | 0, s, _, c =>
    (match c with
     | .empty => (.text "", s)
     | .text t => (.text (escapeStrip t), s)
     | .formula _ (some v) => (v, s)
     | .formula _ none => (.err .Div0, s))
  | f + 1, s, p, c =>
    match c with
    | .empty => (.text "", s)
    | .text t => (.text (escapeStrip t), s)
    | .formula _ (some v) => (v, s)
    | .formula ast none =>
      let lk : SheetState → Pos → (Except FError OD) × SheetState := fun s q =>
        match cellsGet s q with
        | some (some c2) =>
          let vs := cellValue f s q c2
          (lookupConvert vs.1, vs.2)
        | _ => (.ok (some 0), s)
      let rs := execExpr lk s ast
      let v := evalOutcome rs.1
      (v, setCacheAt rs.2 p v)

/-- The lookup lambda of `Formula::Evaluate`: a missing or null cell
contributes `0.0`; otherwise the referenced cell's `GetValue` result is
converted by `lookupConvert`. -/
def lookupRef (f : Nat) (s : SheetState) (q : Pos) : (Except FError OD) × SheetState :=
  match cellsGet s q with
  | some (some c2) =>
    let vs := cellValue f s q c2
    (lookupConvert vs.1, vs.2)
  | _ => (.ok (some 0), s)

/-- `Sheet::CheckCircularDependency` (`sheet.cpp`): depth-first search from
the candidate's referenced cells through the *stored* cells' reference
lists; `true` models the thrown `CircularDependencyException` when the
walk meets `pos`.  A null stored pointer contributes nothing.  The C++
recursion has no visited set and terminates by acyclicity of the stored
graph; the model's fuel is proved sufficient below. -/
def checkCircular : Nat → SheetState → Pos → Option Cell → Bool
  | _, _, _, none => false
  | 0, _, _, some _ => false
  | f + 1, s, pos, some c =>
    c.refs.any fun p =>
      if p = pos then true
      else
        match cellsGet s p with
        | some oc => checkCircular f s pos oc
        | none => false

/-- Errors surfaced to the caller (`InvalidPositionException`,
`FormulaException`, `CircularDependencyException`). -/
inductive SheetErr where
  | invalidPosition
  | formulaSyntax
  | circularDependency
deriving DecidableEq, Repr

/-- Count value of a key in an area projection map (0 when absent). -/
def cntVal (l : List (Int × Nat)) (k : Int) : Nat :=
  (assocGet l k).getD 0

/-- `++index_count[k]` in `PrintableArea::AddPosition`: `operator[]`
default-inserts 0, then the count is incremented. -/
def cntInc (l : List (Int × Nat)) (k : Int) : List (Int × Nat) :=
  match assocGet l k with
  | some n => assocSet l k (n + 1)
  | none => assocSet l k 1

/-- `PrintableArea::RemoveProjection`: a count of 1 erases the key,
otherwise the count is decremented.  The C++ asserts the key is present;
an absent key leaves the map unchanged in the model. -/
def cntDec (l : List (Int × Nat)) (k : Int) : List (Int × Nat) :=
  match assocGet l k with
  | some n => if n = 1 then assocErase l k else assocSet l k (n - 1)
  | none => l

/-- `PrintableArea::AddPosition`. -/
def areaAddPos (s : SheetState) (p : Pos) : SheetState :=
  { s with area := ⟨cntInc s.area.rows p.row, cntInc s.area.cols p.col⟩ }

/-- `PrintableArea::RemovePosition`. -/
def areaRemovePos (s : SheetState) (p : Pos) : SheetState :=
  { s with area := ⟨cntDec s.area.rows p.row, cntDec s.area.cols p.col⟩ }

/-- One axis of `PrintableArea::GetSize`: 0 for an empty map, otherwise the
largest key plus one (`std::prev(end())->first + 1` on the ordered map;
the model folds `max` over the keys, which is the same number). -/
def axisSize (l : List (Int × Nat)) : Int :=
  match l with
  | [] => 0
  | (k, _) :: t => t.foldl (fun a e => max a e.1) k + 1

/-- `Sheet::GetPrintableSize`. -/
def getPrintableSize (s : SheetState) : GridSize :=
  ⟨axisSize s.area.rows, axisSize s.area.cols⟩

/-- First commit step of `Sheet::SetCell`: when the entry at `pos` holds a
non-null, non-Empty cell, unwire its reverse dependency edges and drop it
from the printable area. -/
def setCellPrep (s : SheetState) (pos : Pos) : SheetState :=
  match cellsGet s pos with
  | some (some old) =>
    if old.isEmpty then s else areaRemovePos (removeDependencies s pos old) pos
  | _ => s

/-- The committed tail of `Sheet::SetCell` (`sheet.cpp`, second variant:
the one all mutating steps of the current engine follow): unwire the old
non-Empty cell and drop it from the area, install the new cell, add a
non-Empty cell to the area, insert Empty placeholders for referenced
cells, wire the new reverse edges, invalidate transitive dependents. -/
def setCellCommit (s : SheetState) (pos : Pos) (newCell : Cell) : SheetState :=
  let s2 := cellsSet (setCellPrep s pos) pos (some newCell)
  let s3 := if newCell.isEmpty then s2 else areaAddPos s2 pos
  let s4 := makeEmptyDependentCells s3 newCell
  let s5 := addDependencies s4 pos newCell
  invalidateCache (s5.cells.length + 1) s5 pos

/-- `Sheet::SetCell`: validate the position, build the candidate cell
(`FormulaException` on parse failure), run the cycle check
(`CircularDependencyException` on detection), then commit. -/
def setCell (s : SheetState) (pos : Pos) (t : String) : Except SheetErr SheetState :=
  if ¬ pos.isValid then .error .invalidPosition
  else
    match mkCell t with
    | none => .error .formulaSyntax
    | some newCell =>
      if checkCircular (s.cells.length + 1) s pos (some newCell) then
        .error .circularDependency
      else .ok (setCellCommit s pos newCell)

/-- `Sheet::SetCell` as an imperative run: the second component is the
sheet state when the call returns or when the exception leaves the method.
Each failing step is positioned exactly as in the source, where no mutation
of `sheet_`, `dependency_graph_` or `area_` happens before the last
possible throw point. -/
def setCellRun (s : SheetState) (pos : Pos) (t : String) :
    Option SheetErr × SheetState :=
  if ¬ pos.isValid then (some .invalidPosition, s)
  else
    match mkCell t with
    | none => (some .formulaSyntax, s)
    | some newCell =>
      if checkCircular (s.cells.length + 1) s pos (some newCell) then
        (some .circularDependency, s)
      else (none, setCellCommit s pos newCell)

/-- `Sheet::ClearCell`: validate; a present non-null cell is unhooked from
the area and the dependency graph when non-Empty, then the entry's pointer
is reset (the map entry itself stays, holding null). -/
def clearCell (s : SheetState) (pos : Pos) : Except SheetErr SheetState :=
  if ¬ pos.isValid then .error .invalidPosition
  else
    .ok
      (match cellsGet s pos with
       | some (some c) =>
         let s1 := if c.isEmpty then s else removeDependencies (areaRemovePos s pos) pos c
         cellsSet s1 pos none
       | _ => s)

/-- `Sheet::GetCell`: validate; a present entry returns its raw pointer
(null after `ClearCell` reads as absent, a stored Empty cell reads as
present), a missing entry returns null. -/
def getCell (s : SheetState) (pos : Pos) : Except SheetErr (Option Cell) :=
  if ¬ pos.isValid then .error .invalidPosition
  else
    .ok
      (match cellsGet s pos with
       | some oc => oc
       | none => none)

/-- `operator<<(std::ostream&, FormulaError)` (`formula.cpp`): the printed
token, one fixed string regardless of the error's category. -/
def feOut : FError → String := fun _ => "#DIV/0!"

/-- Modelled from the spec: default `operator<<` formatting of a finite
double (platform formatting, external to `src/`); only its value on the
error-free paths exercised here matters. -/
def renderOD : OD → String
  | none => "inf"
  | some q => toString q

/-- The `std::visit` printer of `Sheet::PrintValues`: strings print as-is,
doubles with the default formatting, errors through `operator<<`. -/
def printCVal : CVal → String
  | .text s => s
  | .num d => renderOD d
  | .err e => feOut e

/-- `Sheet::Print` driving the `PrintValues` printer: row-major over the
printable size, tab between columns, newline after each row; only present
non-null cells print.  `GetValue` may fill caches, so the sheet state is
threaded through the walk. -/
def printValues (f : Nat) (s : SheetState) : String :=
  let sz := getPrintableSize s
  (List.range sz.rows.toNat).foldl
    (fun acc r =>
      let acc2 :=
        (List.range sz.cols.toNat).foldl
          (fun (a : String × SheetState) c =>
            let a1 := if c ≠ 0 then (a.1 ++ "\t", a.2) else a
            match cellsGet a1.2 ⟨(r : Int), (c : Int)⟩ with
            | some (some cell) =>
              let vs := cellValue f a1.2 ⟨(r : Int), (c : Int)⟩ cell
              (a1.1 ++ printCVal vs.1, vs.2)
            | _ => a1)
          acc
      (acc2.1 ++ "\n", acc2.2))
    ("", s)
  |>.1

/-- Sheet states reachable through the public engine operations from the
fresh sheet: successful `SetCell`, successful `ClearCell`, and reading a
stored cell's value (which may fill formula caches). -/
inductive ReachableS : SheetState → Prop
  | init : ReachableS sheetEmpty
  | set {s s' : SheetState} {p : Pos} {t : String} :
      ReachableS s → setCell s p t = .ok s' → ReachableS s'
  | clear {s s' : SheetState} {p : Pos} :
      ReachableS s → clearCell s p = .ok s' → ReachableS s'
  | read {s : SheetState} {f : Nat} {p : Pos} {c : Cell} :
      ReachableS s → cellsGet s p = some (some c) → ReachableS (cellValue f s p c).2

/-- Reference edge of the stored graph: `p`'s stored cell references `q`. -/
def RefEdge (s : SheetState) (p q : Pos) : Prop :=
  ∃ c, cellsGet s p = some (some c) ∧ q ∈ c.refs

/-- Reachability of `pos` from `r` along stored reference edges, recording
the positions whose stored cells the walk expands. -/
inductive RPath (s : SheetState) (pos : Pos) : Pos → List Pos → Prop
  | base : RPath s pos pos []
  | step {p q : Pos} {l : List Pos} {c : Cell} :
      cellsGet s p = some (some c) → q ∈ c.refs → RPath s pos q l →
      RPath s pos p (p :: l)

/-- `pos` is reachable from `r` in the stored reference graph. -/
def Reaches (s : SheetState) (pos r : Pos) : Prop :=
  ∃ l, RPath s pos r l

/-- Acyclicity invariant of the stored reference graph (spec I1): no
position reaches itself through at least one edge. -/
def Acyclic (s : SheetState) : Prop :=
  ∀ p q, RefEdge s p q → ¬ Reaches s p q

instance {ε α : Type} [DecidableEq ε] [DecidableEq α] : DecidableEq (Except ε α) := fun x y =>
  match x, y with
  | .ok a, .ok b => if h : a = b then .isTrue (by rw [h]) else .isFalse (by simp [h])
  | .error a, .error b => if h : a = b then .isTrue (by rw [h]) else .isFalse (by simp [h])
  | .ok _, .error _ => .isFalse (by simp)
  | .error _, .ok _ => .isFalse (by simp)

/-- Public value read: `GetCell(pos)` followed by `->GetValue()` on the
returned pointer; an absent or null cell is never dereferenced by callers
and reads as `Text ""` here. -/
def getValueAt (f : Nat) (s : SheetState) (p : Pos) : CVal :=
  match cellsGet s p with
  | some (some c) => (cellValue f s p c).1
  | _ => .text ""

/-- Position `A1`. -/
def pA1 : Pos := ⟨0, 0⟩

/-- Position `B1`. -/
def pB1 : Pos := ⟨0, 1⟩

/-- Position `B2`. -/
def pB2 : Pos := ⟨1, 1⟩

/-- Position `Z9`. -/
def pZ9 : Pos := ⟨8, 25⟩

/-- Extract the state of a successful engine call (scenario plumbing). -/
def exOk (r : Except SheetErr SheetState) : SheetState :=
  match r with
  | .ok s => s
  | .error _ => sheetEmpty

/-- Public value read with its state effect: `GetCell(pos)` followed by
`->GetValue()`, which may fill caches. -/
def getValueRun (f : Nat) (s : SheetState) (p : Pos) : CVal × SheetState :=
  match cellsGet s p with
  | some (some c) => cellValue f s p c
  | _ => (.text "", s)

/-- A fresh `Formula::Evaluate` of an expression against the current sheet
(the candidate cache is ignored; referenced cells are read as the lookup
lambda reads them). -/
def freshEval (f : Nat) (s : SheetState) (ast : Expr) : CVal :=
  evalOutcome (execExpr (lookupRef f) s ast).1

/-- Scenario state: `set("A1", "=Z9")` on a fresh sheet. -/
def c1s : SheetState := exOk (setCell sheetEmpty pA1 "=Z9")

/-- Scenario state: `set("A1", "5")` on a fresh sheet. -/
def c2s1 : SheetState := exOk (setCell sheetEmpty pA1 "5")

/-- Scenario state: then `set("B1", "=A1")`. -/
def c2s2 : SheetState := exOk (setCell c2s1 pB1 "=A1")

/-- Scenario state: then read `B1`, filling its cache with 5. -/
def c2s3 : SheetState := (getValueRun 10 c2s2 pB1).2

/-- Scenario state: then `clear_cell("A1")`. -/
def c2s4 : SheetState := exOk (clearCell c2s3 pA1)

/-- Scenario state: `set("A1", "abc")` on a fresh sheet. -/
def c6s1 : SheetState := exOk (setCell sheetEmpty pA1 "abc")

/-- Scenario state: then `set("B1", "=A1")` (evaluates to `#VALUE!`). -/
def c6s2 : SheetState := exOk (setCell c6s1 pB1 "=A1")

/-- Scenario state: `set("B2", "x")` on a fresh sheet. -/
def c5s1 : SheetState := exOk (setCell sheetEmpty pB2 "x")

/-- Scenario state: then `clear_cell("B2")`. -/
def c5s2 : SheetState := exOk (clearCell c5s1 pB2)

/-- Scenario state: `set("A1", "=1/0")` on a fresh sheet. -/
def c7s1 : SheetState := exOk (setCell sheetEmpty pA1 "=1/0")

/-- Scenario state: then `set("B1", "=A1+1")`. -/
def c7s2 : SheetState := exOk (setCell c7s1 pB1 "=A1+1")

/-- Scenario state: `set("A1", "=B1")` on a fresh sheet (for the cycle
check and dependency-graph witnesses). -/
def c4s : SheetState := exOk (setCell sheetEmpty pA1 "=B1")

/-- Non-Emptiness of a cell-map entry value: a present, non-null,
non-Empty cell. -/
def nonEmptyB : Option Cell → Bool
  | some c => !c.isEmpty
  | none => false

/-- Number of stored non-Empty cells in row `r`. -/
def rowCnt (s : SheetState) (r : Int) : Nat :=
  s.cells.countP (fun e => nonEmptyB e.2 && decide (e.1.row = r))

/-- Number of stored non-Empty cells in column `k`. -/
def colCnt (s : SheetState) (k : Int) : Nat :=
  s.cells.countP (fun e => nonEmptyB e.2 && decide (e.1.col = k))

/-- Well-formedness of one `PrintableArea` projection map: keys are
distinct and every stored count is positive. -/
def cntWF (l : List (Int × Nat)) : Prop :=
  (l.map Prod.fst).Nodup ∧ ∀ e ∈ l, 1 ≤ e.2

/-- The modelled cell map has distinct keys (as `std::unordered_map`
does). -/
def CellsWF (s : SheetState) : Prop := (s.cells.map Prod.fst).Nodup

/-- The printable-area invariant (spec I4): each projection map is
well-formed and stores, for every index, exactly the number of non-Empty
cells on that row/column. -/
def AreaInv (s : SheetState) : Prop :=
  cntWF s.area.rows ∧ cntWF s.area.cols ∧
  (∀ r : Int, cntVal s.area.rows r = rowCnt s r) ∧
  (∀ k : Int, cntVal s.area.cols k = colCnt s k)

/-- Every dependency-graph node's dependent set is duplicate-free. -/
def DepsND (s : SheetState) : Prop := ∀ R : Pos, (depsGet s R).Nodup

/-- The dependency-graph invariant (spec I2/I3, claim C10): every position
in a dependent set maps to a present, non-null formula cell whose
referenced cells contain the node's key. -/
def DepsInv (s : SheetState) : Prop :=
  ∀ R p : Pos, p ∈ depsGet s R →
    ∃ ast ca, cellsGet s p = some (some (.formula ast ca)) ∧
      R ∈ dedupAdjacent (astCells ast)

/-- The combined state invariant maintained by the engine. -/
def SheetInv (s : SheetState) : Prop := CellsWF s ∧ AreaInv s ∧ DepsND s ∧ DepsInv s

/-- Cache-free skeleton of a cell: everything except a formula's cache. -/
inductive CellS where
  | e
  | t (s : String)
  | f (ast : Expr)
deriving DecidableEq, Repr

/-- Forget a cell's cache. -/
def cellSkel : Cell → CellS
  | .empty => .e
  | .text t => .t t
  | .formula ast _ => .f ast

/-- Cache-free skeleton of the whole sheet state. -/
structure SkelState where
  cells : List (Pos × Option CellS)
  deps : List (Pos × List Pos)
  area : AreaState
deriving DecidableEq

/-- Forget all caches of a sheet state. -/
def skel (s : SheetState) : SkelState :=
  ⟨s.cells.map (fun e => (e.1, e.2.map cellSkel)), s.deps, s.area⟩

/-- Non-Emptiness on the cache-free skeleton. -/
def nonEmptySB : Option CellS → Bool
  | none => false
  | some .e => false
  | some (.t _) => true
  | some (.f _) => true

theorem assocGet_cons_self {α β : Type} [DecidableEq α] (k : α) (v : β) (t : List (α × β)) :
    assocGet ((k, v) :: t) k = some v := by
  simp [assocGet]

theorem assocGet_cons_ne {α β : Type} [DecidableEq α] {a k : α} (v : β) (t : List (α × β))
    (h : ¬ a = k) : assocGet ((a, v) :: t) k = assocGet t k := by
  simp [assocGet, h]

theorem assocSet_cons_self {α β : Type} [DecidableEq α] (k : α) (b v : β) (t : List (α × β)) :
    assocSet ((k, b) :: t) k v = (k, v) :: t := by
  simp [assocSet]

theorem assocSet_cons_ne {α β : Type} [DecidableEq α] {a k : α} (b v : β) (t : List (α × β))
    (h : ¬ a = k) : assocSet ((a, b) :: t) k v = (a, b) :: assocSet t k v := by
  simp [assocSet, h]

theorem assocErase_cons_self {α β : Type} [DecidableEq α] (k : α) (b : β) (t : List (α × β)) :
    assocErase ((k, b) :: t) k = t := by
  simp [assocErase]

theorem assocErase_cons_ne {α β : Type} [DecidableEq α] {a k : α} (b : β) (t : List (α × β))
    (h : ¬ a = k) : assocErase ((a, b) :: t) k = (a, b) :: assocErase t k := by
  simp [assocErase, h]

theorem assocGet_assocSet {α β : Type} [DecidableEq α] (l : List (α × β)) (k : α) (v : β)
    (x : α) : assocGet (assocSet l k v) x = if x = k then some v else assocGet l x := by
  induction l with
  | nil =>
    by_cases h : x = k
    · subst h
      simp [assocSet, assocGet]
    · have hkx : ¬ k = x := fun hh => h hh.symm
      simp [assocSet, assocGet, h, hkx]
  | cons e t ih =>
    obtain ⟨a, b⟩ := e
    by_cases hak : a = k
    · subst hak
      rw [assocSet_cons_self]
      by_cases hx : x = a
      · subst hx
        rw [assocGet_cons_self, assocGet_cons_self, if_pos rfl]
      · have hax : ¬ a = x := fun hh => hx hh.symm
        rw [assocGet_cons_ne _ _ hax, assocGet_cons_ne _ _ hax, if_neg hx]
    · rw [assocSet_cons_ne _ _ _ hak]
      by_cases hx : x = a
      · subst hx
        rw [assocGet_cons_self, assocGet_cons_self, if_neg hak]
      · have hax : ¬ a = x := fun hh => hx hh.symm
        rw [assocGet_cons_ne _ _ hax, assocGet_cons_ne _ _ hax, ih]

theorem assocGet_mem {α β : Type} [DecidableEq α] {l : List (α × β)} {k : α} {v : β}
    (h : assocGet l k = some v) : (k, v) ∈ l := by
  induction l with
  | nil => simp [assocGet] at h
  | cons e t ih =>
    obtain ⟨a, b⟩ := e
    by_cases hak : a = k
    · subst hak
      rw [assocGet_cons_self] at h
      injection h with h
      subst h
      exact List.mem_cons_self _ _
    · rw [assocGet_cons_ne _ _ hak] at h
      exact List.mem_cons_of_mem _ (ih h)

theorem assocGet_eq_none {α β : Type} [DecidableEq α] {l : List (α × β)} {k : α}
    (h : k ∉ l.map Prod.fst) : assocGet l k = none := by
  induction l with
  | nil => rfl
  | cons e t ih =>
    obtain ⟨a, b⟩ := e
    rw [List.map_cons, List.mem_cons, not_or] at h
    rw [assocGet_cons_ne _ _ (fun hak : a = k => h.1 hak.symm)]
    exact ih h.2

theorem assocGet_assocErase {α β : Type} [DecidableEq α] {l : List (α × β)}
    (hnd : (l.map Prod.fst).Nodup) (k x : α) :
    assocGet (assocErase l k) x = if x = k then none else assocGet l x := by
  induction l with
  | nil =>
    by_cases h : x = k <;> simp [assocErase, assocGet, h]
  | cons e t ih =>
    obtain ⟨a, b⟩ := e
    rw [List.map_cons, List.nodup_cons] at hnd
    by_cases hak : a = k
    · subst hak
      rw [assocErase_cons_self]
      by_cases hx : x = a
      · subst hx
        rw [if_pos rfl]
        exact assocGet_eq_none hnd.1
      · have hax : ¬ a = x := fun hh => hx hh.symm
        rw [assocGet_cons_ne _ _ hax, if_neg hx]
    · rw [assocErase_cons_ne _ _ hak]
      by_cases hx : x = a
      · subst hx
        rw [assocGet_cons_self, assocGet_cons_self, if_neg hak]
      · have hax : ¬ a = x := fun hh => hx hh.symm
        rw [assocGet_cons_ne _ _ hax, assocGet_cons_ne _ _ hax, ih hnd.2]

theorem assocSet_map_fst_of_mem {α β : Type} [DecidableEq α] {l : List (α × β)} {k : α}
    (v : β) (h : k ∈ l.map Prod.fst) : (assocSet l k v).map Prod.fst = l.map Prod.fst := by
  induction l with
  | nil => simp at h
  | cons e t ih =>
    obtain ⟨a, b⟩ := e
    by_cases hak : a = k
    · subst hak
      rw [assocSet_cons_self]
      simp
    · rw [List.map_cons, List.mem_cons] at h
      rcases h with h | h
      · exact absurd h.symm hak
      · rw [assocSet_cons_ne _ _ _ hak, List.map_cons, List.map_cons, ih h]

theorem assocSet_map_fst_of_not_mem {α β : Type} [DecidableEq α] {l : List (α × β)} {k : α}
    (v : β) (h : k ∉ l.map Prod.fst) :
    (assocSet l k v).map Prod.fst = l.map Prod.fst ++ [k] := by
  induction l with
  | nil => simp [assocSet]
  | cons e t ih =>
    obtain ⟨a, b⟩ := e
    rw [List.map_cons, List.mem_cons, not_or] at h
    rw [assocSet_cons_ne _ _ _ (fun hak : a = k => h.1 hak.symm)]
    rw [List.map_cons, List.map_cons, ih h.2]
    rfl

theorem assocSet_nodup_fst {α β : Type} [DecidableEq α] {l : List (α × β)} {k : α} (v : β)
    (hnd : (l.map Prod.fst).Nodup) : ((assocSet l k v).map Prod.fst).Nodup := by
  by_cases hm : k ∈ l.map Prod.fst
  · rw [assocSet_map_fst_of_mem v hm]
    exact hnd
  · rw [assocSet_map_fst_of_not_mem v hm]
    simp [List.nodup_append, hnd, hm]

theorem assocSet_mem {α β : Type} [DecidableEq α] {l : List (α × β)} {k : α} {v : β}
    {e : α × β} (h : e ∈ assocSet l k v) : e = (k, v) ∨ e ∈ l := by
  induction l with
  | nil => simpa [assocSet] using h
  | cons f t ih =>
    obtain ⟨a, b⟩ := f
    by_cases hak : a = k
    · subst hak
      rw [assocSet_cons_self, List.mem_cons] at h
      rcases h with h | h
      · exact Or.inl h
      · exact Or.inr (List.mem_cons_of_mem _ h)
    · rw [assocSet_cons_ne _ _ _ hak, List.mem_cons] at h
      rcases h with h | h
      · exact Or.inr (h ▸ List.mem_cons_self _ _)
      · rcases ih h with h2 | h2
        · exact Or.inl h2
        · exact Or.inr (List.mem_cons_of_mem _ h2)

theorem assocErase_sublist {α β : Type} [DecidableEq α] (l : List (α × β)) (k : α) :
    List.Sublist (assocErase l k) l := by
  induction l with
  | nil => simp [assocErase]
  | cons e t ih =>
    obtain ⟨a, b⟩ := e
    by_cases hak : a = k
    · subst hak
      rw [assocErase_cons_self]
      exact List.Sublist.cons (a, b) (List.Sublist.refl t)
    · rw [assocErase_cons_ne _ _ hak]
      exact List.Sublist.cons₂ (a, b) ih

theorem foldl_preserves {α σ : Type} (P : σ → Prop) (g : σ → α → σ)
    (h : ∀ s a, P s → P (g s a)) : ∀ (l : List α) (s : σ), P s → P (l.foldl g s) := by
  intro l
  induction l with
  | nil => intro s hs; exact hs
  | cons a t ih => intro s hs; exact ih (g s a) (h s a hs)

theorem assocGet_map {α β γ : Type} [DecidableEq α] (l : List (α × β)) (g : β → γ) (k : α) :
    assocGet (l.map (fun e => (e.1, g e.2))) k = (assocGet l k).map g := by
  induction l with
  | nil => rfl
  | cons e t ih =>
    obtain ⟨a, b⟩ := e
    by_cases hak : a = k <;> simp [assocGet, hak, ih]

theorem assocSet_map {α β γ : Type} [DecidableEq α] (l : List (α × β)) (g : β → γ)
    (k : α) (v : β) :
    (assocSet l k v).map (fun e => (e.1, g e.2)) = assocSet (l.map (fun e => (e.1, g e.2))) k (g v) := by
  induction l with
  | nil => rfl
  | cons e t ih =>
    obtain ⟨a, b⟩ := e
    by_cases hak : a = k <;> simp [assocSet, hak, ih]

theorem assocSet_self {α β : Type} [DecidableEq α] {l : List (α × β)} {k : α} {v : β}
    (h : assocGet l k = some v) : assocSet l k v = l := by
  induction l with
  | nil => simp [assocGet] at h
  | cons e t ih =>
    obtain ⟨a, b⟩ := e
    by_cases hak : a = k
    · subst hak
      rw [assocGet_cons_self] at h
      injection h with h
      subst h
      rw [assocSet_cons_self]
    · rw [assocGet_cons_ne _ _ hak] at h
      rw [assocSet_cons_ne _ _ _ hak, ih h]

theorem skel_cellsGet (s : SheetState) (p : Pos) :
    assocGet (skel s).cells p = (cellsGet s p).map (Option.map cellSkel) := by
  exact assocGet_map s.cells (Option.map cellSkel) p

theorem setCacheAt_skel (s : SheetState) (p : Pos) (v : CVal) :
    skel (setCacheAt s p v) = skel s := by
  unfold setCacheAt
  cases h : cellsGet s p with
  | none => rfl
  | some oc =>
    cases oc with
    | none => rfl
    | some c =>
      cases c with
      | empty => rfl
      | text t => rfl
      | formula ast ca =>
        show skel (cellsSet s p (some (.formula ast (some v)))) = skel s
        unfold skel cellsSet
        simp only
        congr 1
        rw [assocSet_map s.cells (Option.map cellSkel) p (some (.formula ast (some v)))]
        apply assocSet_self
        rw [assocGet_map]
        unfold cellsGet at h
        rw [h]
        rfl

theorem clearCacheAt_skel (s : SheetState) (p : Pos) :
    skel (clearCacheAt s p) = skel s := by
  unfold clearCacheAt
  cases h : cellsGet s p with
  | none => rfl
  | some oc =>
    cases oc with
    | none => rfl
    | some c =>
      cases c with
      | empty => rfl
      | text t => rfl
      | formula ast ca =>
        show skel (cellsSet s p (some (.formula ast none))) = skel s
        unfold skel cellsSet
        simp only
        congr 1
        rw [assocSet_map s.cells (Option.map cellSkel) p (some (.formula ast none))]
        apply assocSet_self
        rw [assocGet_map]
        unfold cellsGet at h
        rw [h]
        rfl

theorem invalidateCache_skel (f : Nat) (s : SheetState) (p : Pos) :
    skel (invalidateCache f s p) = skel s := by
  induction f generalizing s p with
  | zero => rfl
  | succ f ih =>
    show skel ((depsGet s p).foldl (fun s q => clearCacheAt (invalidateCache f s q) q) s) = skel s
    refine foldl_preserves (fun s' => skel s' = skel s) _ ?_ (depsGet s p) s rfl
    intro s' q hs
    rw [clearCacheAt_skel, ih, hs]

theorem execStep2_skel (g : OD → OD → OD) (ra : (Except FError OD) × SheetState)
    (kb : SheetState → (Except FError OD) × SheetState) (t : SkelState)
    (hra : skel ra.2 = t) (hkb : ∀ s1, skel (kb s1).2 = skel s1) :
    skel (execStep2 g ra kb).2 = t := by
  rcases ra with ⟨r1, s1⟩
  cases r1 with
  | error e => exact hra
  | ok x =>
    show skel (match kb s1 with
      | (Except.error e, s2) => (Except.error e, s2)
      | (Except.ok y, s2) => (Except.ok (g x y), s2)).2 = t
    rcases h2 : kb s1 with ⟨r2, s2⟩
    have hb : skel s2 = skel s1 := by
      have h := hkb s1
      rw [h2] at h
      exact h
    cases r2 with
    | error e => exact hb.trans hra
    | ok y => exact hb.trans hra

theorem execExpr_skel (lk : SheetState → Pos → (Except FError OD) × SheetState)
    (hlk : ∀ s q, skel (lk s q).2 = skel s) :
    ∀ (e : Expr) (s : SheetState), skel (execExpr lk s e).2 = skel s := by
  intro e
  induction e with
  | num q => intro s; rfl
  | cell p => intro s; exact hlk s p
  | add a b iha ihb => intro s; exact execStep2_skel _ _ _ _ (iha s) ihb
  | sub a b iha ihb => intro s; exact execStep2_skel _ _ _ _ (iha s) ihb
  | mul a b iha ihb => intro s; exact execStep2_skel _ _ _ _ (iha s) ihb
  | div a b iha ihb => intro s; exact execStep2_skel _ _ _ _ (iha s) ihb
  | neg a iha =>
    intro s
    show skel (match execExpr lk s a with
      | (Except.error e, s1) => (Except.error e, s1)
      | (Except.ok x, s1) => (Except.ok (dNeg x), s1)).2 = skel s
    rcases h1 : execExpr lk s a with ⟨r1, s1⟩
    have ha : skel s1 = skel s := by
      have h := iha s
      rw [h1] at h
      exact h
    cases r1 with
    | error e => exact ha
    | ok x => exact ha

theorem cellValue_succ_formula_none (f : Nat) (s : SheetState) (p : Pos) (ast : Expr) :
    cellValue (f + 1) s p (.formula ast none) =
      (evalOutcome (execExpr (lookupRef f) s ast).1,
       setCacheAt (execExpr (lookupRef f) s ast).2 p
         (evalOutcome (execExpr (lookupRef f) s ast).1)) := rfl

theorem cellValue_skel : ∀ (f : Nat) (s : SheetState) (p : Pos) (c : Cell),
    skel (cellValue f s p c).2 = skel s := by
  intro f
  induction f with
  | zero =>
    intro s p c
    cases c with
    | empty => rfl
    | text t => rfl
    | formula ast ca => cases ca <;> rfl
  | succ f ih =>
    intro s p c
    have hlk : ∀ (s' : SheetState) (q : Pos), skel (lookupRef f s' q).2 = skel s' := by
      intro s' q
      unfold lookupRef
      cases h : cellsGet s' q with
      | none => rfl
      | some oc =>
        cases oc with
        | none => rfl
        | some c2 => simp only; exact ih s' q c2
    cases c with
    | empty => rfl
    | text t => rfl
    | formula ast ca =>
      cases ca with
      | some v => rfl
      | none =>
        rw [cellValue_succ_formula_none]
        simp only
        rw [setCacheAt_skel]
        exact execExpr_skel _ hlk ast s

theorem lookupRef_skel (f : Nat) (s : SheetState) (q : Pos) :
    skel (lookupRef f s q).2 = skel s := by
  unfold lookupRef
  cases h : cellsGet s q with
  | none => rfl
  | some oc =>
    cases oc with
    | none => rfl
    | some c2 => simp only; exact cellValue_skel f s q c2

theorem dedupAux_cons (l : List Pos) : ∀ last, ∃ t, dedupAux last l = last :: t := by
  induction l with
  | nil => intro last; exact ⟨[], rfl⟩
  | cons y ys ih =>
    intro last
    by_cases h : y = last
    · simp only [dedupAux, if_pos h]
      exact ih last
    · simp only [dedupAux, if_neg h]
      exact ⟨dedupAux y ys, rfl⟩

theorem dedupAux_chain (l : List Pos) :
    ∀ last, List.Chain' (fun a b => a ≠ b) (dedupAux last l) := by
  induction l with
  | nil => intro last; simp [dedupAux]
  | cons y ys ih =>
    intro last
    by_cases h : y = last
    · simp only [dedupAux, if_pos h]
      exact ih last
    · simp only [dedupAux, if_neg h]
      obtain ⟨t, ht⟩ := dedupAux_cons ys y
      rw [ht, List.chain'_cons]
      constructor
      · exact fun hh => h hh.symm
      · rw [← ht]
        exact ih y

theorem dedupAux_sublist (l : List Pos) :
    ∀ last, List.Sublist (dedupAux last l) (last :: l) := by
  induction l with
  | nil => intro last; simp [dedupAux]
  | cons y ys ih =>
    intro last
    by_cases h : y = last
    · simp only [dedupAux, if_pos h]
      have h2 : List.Sublist (last :: ys) (last :: y :: ys) := by
        subst h
        exact List.Sublist.cons₂ y (List.Sublist.cons y (List.Sublist.refl ys))
      exact (ih last).trans h2
    · simp only [dedupAux, if_neg h]
      exact List.Sublist.cons₂ last (ih y)

theorem dedupAux_mem (l : List Pos) :
    ∀ last x, x ∈ last :: l → x ∈ dedupAux last l := by
  induction l with
  | nil =>
    intro last x hx
    simpa [dedupAux] using hx
  | cons y ys ih =>
    intro last x hx
    by_cases h : y = last
    · simp only [dedupAux, if_pos h]
      apply ih last
      rcases List.mem_cons.mp hx with h1 | h1
      · exact h1 ▸ List.mem_cons_self _ _
      · rcases List.mem_cons.mp h1 with h2 | h2
        · rw [h2, h]
          exact List.mem_cons_self _ _
        · exact List.mem_cons_of_mem _ h2
    · simp only [dedupAux, if_neg h]
      rcases List.mem_cons.mp hx with h1 | h1
      · exact h1 ▸ List.mem_cons_self _ _
      · exact List.mem_cons_of_mem _ (ih y x h1)

theorem dedupAdjacent_chain (l : List Pos) :
    List.Chain' (fun a b => a ≠ b) (dedupAdjacent l) := by
  cases l with
  | nil => simp [dedupAdjacent]
  | cons x xs => exact dedupAux_chain xs x

theorem dedupAdjacent_sublist (l : List Pos) : List.Sublist (dedupAdjacent l) l := by
  cases l with
  | nil => simp [dedupAdjacent]
  | cons x xs => exact dedupAux_sublist xs x

theorem dedupAdjacent_mem (l : List Pos) (x : Pos) : x ∈ dedupAdjacent l ↔ x ∈ l := by
  constructor
  · intro h
    exact (dedupAdjacent_sublist l).subset h
  · intro h
    cases l with
    | nil => simp at h
    | cons y ys => exact dedupAux_mem ys y x h

theorem posLe_antisymm {p q : Pos} (h1 : posLe p q) (h2 : posLe q p) : p = q := by
  obtain ⟨pr, pc⟩ := p
  obtain ⟨qr, qc⟩ := q
  unfold posLe at h1 h2
  dsimp only at h1 h2
  simp only [Pos.mk.injEq]
  omega

theorem sorted_ne_nodup : ∀ (l : List Pos), List.Pairwise posLe l →
    List.Chain' (fun a b => a ≠ b) l → l.Nodup := by
  intro l
  induction l with
  | nil => intro _ _; exact List.nodup_nil
  | cons x xs ih =>
    intro hp hc
    rw [List.pairwise_cons] at hp
    obtain ⟨hx, hp2⟩ := hp
    refine List.nodup_cons.mpr ⟨?_, ih hp2 ?_⟩
    · intro hmem
      cases xs with
      | nil => simp at hmem
      | cons y ys =>
        have hxy : x ≠ y := (List.chain'_cons.mp hc).1
        rcases List.mem_cons.mp hmem with h | h
        · exact hxy h
        · have h1 : posLe x y := hx y (List.mem_cons_self _ _)
          have h2 : posLe y x := (List.pairwise_cons.mp hp2).1 x h
          exact hxy (posLe_antisymm h1 h2)
    · cases xs with
      | nil => exact List.chain'_nil
      | cons y ys => exact (List.chain'_cons.mp hc).2

/-- C9 counterexample: the returned order is ascending `Position` order,
not order of first appearance in the expression.  For `=B1+A1` the parse
tree mentions `B1` first, yet `referenced_cells()` returns `[A1, B1]`,
because the `FormulaAST` sorts its cell list before the dedup loop of
`Formula::GetReferencedCells` runs. -/
theorem C9_counterexample :
    mkCell "=B1+A1" = some (Cell.formula (Expr.add (Expr.cell pB1) (Expr.cell pA1)) none) ∧
    astCellsRaw (Expr.add (Expr.cell pB1) (Expr.cell pA1)) = [pB1, pA1] ∧
    (Cell.formula (Expr.add (Expr.cell pB1) (Expr.cell pA1)) none).refs = [pA1, pB1] ∧
    ¬ (Cell.formula (Expr.add (Expr.cell pB1) (Expr.cell pA1)) none).refs = [pB1, pA1] := by
  refine ⟨by decide, by decide, by decide, by decide⟩

/-- C9 (amended): for every formula cell, `referenced_cells()` returns a
duplicate-free list containing exactly the positions referenced by the
expression, in ascending `Position` (row-major) order — not in order of
first appearance.  Deduplication is complete for every expression, even
when equal positions are not adjacent in the syntactic traversal, because
the `FormulaAST` hands over a *sorted* cell list, on which the
adjacent-only dedup loop of `Formula::GetReferencedCells` removes every
duplicate. -/
theorem C9_refs_sorted_dedup (ast : Expr) (ca : Option CVal) :
    ((Cell.formula ast ca).refs).Nodup ∧
    List.Pairwise posLe ((Cell.formula ast ca).refs) ∧
    (∀ x : Pos, x ∈ (Cell.formula ast ca).refs ↔ x ∈ astCellsRaw ast) := by
  have hs : List.Pairwise posLe (astCells ast) :=
    List.sorted_insertionSort posLe (astCellsRaw ast)
  have hp : List.Pairwise posLe (dedupAdjacent (astCells ast)) :=
    List.Pairwise.sublist (dedupAdjacent_sublist _) hs
  refine ⟨sorted_ne_nodup _ hp (dedupAdjacent_chain _), hp, ?_⟩
  intro x
  show x ∈ dedupAdjacent (astCells ast) ↔ x ∈ astCellsRaw ast
  rw [dedupAdjacent_mem]
  exact (List.perm_insertionSort posLe (astCellsRaw ast)).mem_iff

theorem cellsGet_cellsSet_self (s : SheetState) (p : Pos) (v : Option Cell) :
    cellsGet (cellsSet s p v) p = some v := by
  unfold cellsGet cellsSet
  simp only
  rw [assocGet_assocSet]
  simp

theorem cellsGet_cellsSet_ne (s : SheetState) (p q : Pos) (v : Option Cell) (h : ¬ q = p) :
    cellsGet (cellsSet s p v) q = cellsGet s q := by
  unfold cellsGet cellsSet
  simp only
  rw [assocGet_assocSet]
  rw [if_neg h]

theorem addDependencies_cells (s : SheetState) (pos : Pos) (c : Cell) :
    (addDependencies s pos c).cells = s.cells := by
  unfold addDependencies
  refine foldl_preserves (fun s' => s'.cells = s.cells) _ ?_ c.refs s rfl
  intro s' a h
  exact h

theorem removeDependencies_cells (s : SheetState) (pos : Pos) (c : Cell) :
    (removeDependencies s pos c).cells = s.cells := by
  unfold removeDependencies
  refine foldl_preserves (fun s' => s'.cells = s.cells) _ ?_ c.refs s rfl
  intro s' a h
  exact h

theorem cellsGet_congr {s1 s2 : SheetState} (h : s1.cells = s2.cells) (p : Pos) :
    cellsGet s1 p = cellsGet s2 p := by
  unfold cellsGet
  rw [h]

theorem makeEmpty_preserves_present {s : SheetState} {q : Pos} {c0 : Cell}
    (h : cellsGet s q = some (some c0)) (c : Cell) :
    cellsGet (makeEmptyDependentCells s c) q = some (some c0) := by
  unfold makeEmptyDependentCells
  refine foldl_preserves (fun s' => cellsGet s' q = some (some c0)) _ ?_ c.refs s h
  intro s' p hp
  cases hg : cellsGet s' p with
  | none =>
    simp only [hg]
    by_cases hqp : q = p
    · subst hqp
      rw [hg] at hp
      cases hp
    · rw [cellsGet_cellsSet_ne _ _ _ _ hqp]
      exact hp
  | some oc =>
    cases oc with
    | none =>
      simp only [hg]
      by_cases hqp : q = p
      · subst hqp
        rw [hg] at hp
        cases hp
      · rw [cellsGet_cellsSet_ne _ _ _ _ hqp]
        exact hp
    | some c2 =>
      simp only [hg]
      exact hp

theorem cellsGet_text_of_skel {s1 s2 : SheetState} (h : skel s1 = skel s2) {p : Pos}
    {t : String} (h2 : cellsGet s2 p = some (some (.text t))) :
    cellsGet s1 p = some (some (.text t)) := by
  have hm : (cellsGet s1 p).map (Option.map cellSkel) = (cellsGet s2 p).map (Option.map cellSkel) := by
    rw [← skel_cellsGet, ← skel_cellsGet, h]
  rw [h2] at hm
  cases hg : cellsGet s1 p with
  | none => rw [hg] at hm; simp [cellSkel] at hm
  | some oc =>
    cases oc with
    | none => rw [hg] at hm; simp [cellSkel] at hm
    | some c =>
      rw [hg] at hm
      cases c with
      | empty => simp [cellSkel] at hm
      | text t2 =>
        simp only [cellSkel, Option.map_some', Option.some.injEq, CellS.t.injEq] at hm
        rw [hm]
      | formula ast ca => simp [cellSkel] at hm

theorem mkCell_text {t : String} (h1 : t ≠ "") (h2 : isFormulaText t = false) :
    mkCell t = some (.text t) := by
  unfold mkCell
  rw [if_neg h1, if_neg (by simp [h2])]

theorem checkCircular_refs_nil (f : Nat) (s : SheetState) (pos : Pos) (c : Cell)
    (h : c.refs = []) : checkCircular f s pos (some c) = false := by
  cases f with
  | zero => rfl
  | succ f => simp [checkCircular, h]

theorem setCellCommit_text (s : SheetState) (pos : Pos) (t : String) :
    cellsGet (setCellCommit s pos (.text t)) pos = some (some (.text t)) := by
  unfold setCellCommit
  simp only
  have h2 : cellsGet (cellsSet (setCellPrep s pos) pos (some (.text t))) pos
      = some (some (.text t)) := cellsGet_cellsSet_self _ _ _
  have h3 : cellsGet (areaAddPos (cellsSet (setCellPrep s pos) pos (some (.text t))) pos) pos
      = some (some (.text t)) := h2
  simp only [Cell.isEmpty, Bool.false_eq_true, if_false]
  have h4 := makeEmpty_preserves_present h3 (.text t)
  have h5 : cellsGet (addDependencies (makeEmptyDependentCells
      (areaAddPos (cellsSet (setCellPrep s pos) pos (some (.text t))) pos) (.text t)) pos (.text t)) pos
      = some (some (.text t)) := by
    rw [cellsGet_congr (addDependencies_cells _ _ _)]
    exact h4
  exact cellsGet_text_of_skel (invalidateCache_skel _ _ _) h5

/-- C8: for every sheet state, valid position and non-empty text that is
not a formula (does not start with `'='` at length above 1), `set_cell`
succeeds and `get_cell(pos)` then returns a present cell whose `text()` is
exactly the stored string, leading escape marker included; the single
character `"="` is such a text. -/
theorem C8_text_roundtrip (s : SheetState) (pos : Pos) (t : String)
    (hv : pos.isValid = true) (hne : t ≠ "") (hnf : isFormulaText t = false) :
    ∃ s', setCell s pos t = .ok s' ∧
      ∃ c, getCell s' pos = .ok (some c) ∧ c.getText = t := by
  have hmk := mkCell_text hne hnf
  have hcc := checkCircular_refs_nil (s.cells.length + 1) s pos (.text t) rfl
  refine ⟨setCellCommit s pos (.text t), ?_, .text t, ?_, rfl⟩
  · unfold setCell
    rw [if_neg (by simp [hv]), hmk]
    simp [hcc]
  · unfold getCell
    rw [if_neg (by simp [hv])]
    rw [setCellCommit_text]

/-- C8 witness: storing the one-character string `"="` at `A1` round-trips
as the text `"="`. -/
theorem C8_text_roundtrip_witness :
    ∃ s', setCell sheetEmpty pA1 "=" = .ok s' ∧
      ∃ c, getCell s' pA1 = .ok (some c) ∧ c.getText = "=" :=
  C8_text_roundtrip sheetEmpty pA1 "=" (by decide) (by decide) (by decide)

/-- C1 counterexample: after `set_cell(A1, "=Z9")` on a fresh sheet the
engine stores an Empty placeholder cell at `Z9`, and `GetCell(Z9)` returns
that cell's (non-null) pointer — not the absent sentinel the claim
requires.  Only the printable-size half of S8 holds. -/
theorem C1_counterexample :
    setCell sheetEmpty pA1 "=Z9" = .ok c1s ∧
    cellsGet c1s pZ9 = some (some .empty) ∧
    getCell c1s pZ9 = .ok (some .empty) ∧
    ¬ getCell c1s pZ9 = .ok none ∧
    getPrintableSize c1s = ⟨1, 1⟩ := by
  exact ⟨by decide, by decide, by decide, by decide, by decide⟩

/-- C1, amended: for every valid position, `get_cell` returns the absent
sentinel exactly when the map has no entry there or the entry holds a null
pointer (a cleared cell); a stored Empty placeholder is returned as a
*present* cell whose text is `""` and whose value is `Text ""`.  After
`set_cell(A1, "=Z9")` on a fresh sheet, `get_cell(Z9)` is therefore
present (an Empty cell), while on the fresh sheet it is absent. -/
theorem C1_placeholder_present :
    (∀ (s : SheetState) (p : Pos), p.isValid = true →
      (getCell s p = .ok none ↔ (cellsGet s p = none ∨ cellsGet s p = some none))) ∧
    getCell c1s pZ9 = .ok (some .empty) ∧
    Cell.getText .empty = "" ∧
    (getValueRun 10 c1s pZ9).1 = .text "" ∧
    getCell sheetEmpty pZ9 = .ok none := by
  refine ⟨?_, by decide, by decide, by decide, by decide⟩
  intro s p hv
  unfold getCell
  rw [if_neg (by simp [hv])]
  cases h : cellsGet s p with
  | none => simp
  | some oc =>
    cases oc with
    | none => simp
    | some c => simp

/-- C1 witness: the general absent-sentinel characterisation instantiated
on the fresh sheet at `Z9`. -/
theorem C1_placeholder_present_witness :
    getCell sheetEmpty pZ9 = .ok none ↔
      (cellsGet sheetEmpty pZ9 = none ∨ cellsGet sheetEmpty pZ9 = some none) :=
  C1_placeholder_present.1 sheetEmpty pZ9 (by decide)

/-- C6 counterexample: with `A1 = "abc"` and `B1 = "=A1"`, the value of
`B1` is an `EvalError` of category `Value`, yet `PrintValues` renders it
through `operator<<(std::ostream&, FormulaError)` as `#DIV/0!` — not the
category token `#VALUE!` the claim requires. -/
theorem C6_counterexample :
    setCell sheetEmpty pA1 "abc" = .ok c6s1 ∧
    setCell c6s1 pB1 "=A1" = .ok c6s2 ∧
    getValueAt 10 c6s2 pB1 = .err .Value ∧
    printValues 10 c6s2 = "abc\t#DIV/0!\n" ∧
    ¬ printValues 10 c6s2 = "abc\t#VALUE!\n" := by
  exact ⟨by decide, by decide, by decide, by decide, by decide⟩

/-- C6, amended: when `PrintValues` renders a cell whose value is an
`EvalError`, the printed token is the single fixed string `"#DIV/0!"` for
*every* error category (`operator<<` ignores the category), not a
per-category token. -/
theorem C6_error_prints_div0 (e : FError) :
    printCVal (.err e) = "#DIV/0!" ∧ feOut e = "#DIV/0!" := by
  cases e <;> exact ⟨rfl, rfl⟩

/-- C2 (code bug): set `A1 = "5"`, `B1 = "=A1"`, read `B1` (so its cache
holds 5), then `clear_cell(A1)`.  `Sheet::ClearCell` never invalidates the
caches of transitive dependents, so `B1`'s cache still holds 5 and
`get_value(B1)` returns 5, while a fresh `Formula::Evaluate` of `B1`'s
formula against the current sheet yields 0 (the cleared `A1` reads as
absent).  This violates spec invariant P8 and the ClearCell step
"invalidate transitive dependents of pos". -/
theorem C2_clearcell_stale_cache :
    setCell sheetEmpty pA1 "5" = .ok c2s1 ∧
    setCell c2s1 pB1 "=A1" = .ok c2s2 ∧
    (getValueRun 10 c2s2 pB1).1 = .num (some 5) ∧
    clearCell c2s3 pA1 = .ok c2s4 ∧
    cellsGet c2s4 pB1 = some (some (.formula (.cell pA1) (some (.num (some 5))))) ∧
    getValueAt 10 c2s4 pB1 = .num (some 5) ∧
    freshEval 10 c2s4 (.cell pA1) = .num (some 0) ∧
    ¬ CVal.num (some 5) = CVal.num (some 0) := by
  exact ⟨by decide, by decide, by decide, by decide, by decide, by decide, by decide, by decide⟩

theorem setCellRun_fail_state {s : SheetState} {pos : Pos} {t : String} {e : SheetErr}
    (h : (setCellRun s pos t).1 = some e) : (setCellRun s pos t).2 = s := by
  unfold setCellRun at h ⊢
  by_cases hv : pos.isValid
  · rw [if_neg (by simp [hv])] at h ⊢
    cases hm : mkCell t with
    | none => rfl
    | some c =>
      rw [hm] at h
      have h2 : (if checkCircular (s.cells.length + 1) s pos (some c) = true
          then (some SheetErr.circularDependency, s)
          else ((none : Option SheetErr), setCellCommit s pos c)).1 = some e := h
      show (if checkCircular (s.cells.length + 1) s pos (some c) = true
          then (some SheetErr.circularDependency, s)
          else ((none : Option SheetErr), setCellCommit s pos c)).2 = s
      by_cases hc : checkCircular (s.cells.length + 1) s pos (some c) = true
      · rw [if_pos hc]
      · rw [if_neg hc] at h2
        cases h2
  · rw [if_pos (by simp [hv])] at h ⊢

/-- C3: a `SetCell` call that fails — with `InvalidPosition`,
`FormulaSyntaxError` or `CircularDependency` — leaves the sheet state it
was called on unchanged: the state at the throw is the pre-call state, so
`get_value`, `get_text` (through `get_cell`) and `printable_size` report
exactly what they reported before the call. -/
theorem C3_failed_setcell_atomic (s : SheetState) (pos : Pos) (t : String) (e : SheetErr)
    (h : (setCellRun s pos t).1 = some e) :
    (setCellRun s pos t).2 = s ∧
    getPrintableSize (setCellRun s pos t).2 = getPrintableSize s ∧
    (∀ (f : Nat) (q : Pos), getValueAt f (setCellRun s pos t).2 q = getValueAt f s q) ∧
    (∀ q : Pos, (getCell (setCellRun s pos t).2 q).map (Option.map Cell.getText)
        = (getCell s q).map (Option.map Cell.getText)) := by
  have hs := setCellRun_fail_state h
  rw [hs]
  exact ⟨rfl, rfl, fun f q => rfl, fun q => rfl⟩

/-- C3 witness: the failing call `set_cell((-1,0), "x")` (invalid
position) on the fresh sheet leaves every observable unchanged. -/
theorem C3_failed_setcell_atomic_witness :
    (setCellRun sheetEmpty ⟨-1, 0⟩ "x").2 = sheetEmpty ∧
    getPrintableSize (setCellRun sheetEmpty ⟨-1, 0⟩ "x").2 = getPrintableSize sheetEmpty ∧
    (∀ (f : Nat) (q : Pos),
      getValueAt f (setCellRun sheetEmpty ⟨-1, 0⟩ "x").2 q = getValueAt f sheetEmpty q) ∧
    (∀ q : Pos, (getCell (setCellRun sheetEmpty ⟨-1, 0⟩ "x").2 q).map (Option.map Cell.getText)
        = (getCell sheetEmpty q).map (Option.map Cell.getText)) :=
  C3_failed_setcell_atomic sheetEmpty ⟨-1, 0⟩ "x" .invalidPosition (by decide)

/-- C7: the lookup lambda of `Formula::Evaluate` behaves as specified —
a missing or null-pointer entry and a stored Empty cell contribute `0.0`;
a Text cell's value string (escape already consumed by `GetValue`) is
parsed as a finite number, contributing the number on success and raising
`#VALUE!` on failure (the empty value string counts as `0.0`); a referenced
formula's stored `EvalError` is rethrown, and a non-finite looked-up double
raises `#DIV/0!`.  Concretely, `set("A1","=1/0")` gives `A1 = #DIV/0!`,
and `set("B1","=A1+1")` then gives `B1 = #DIV/0!` by propagation. -/
theorem C7_lookup_semantics :
    (∀ (f : Nat) (s : SheetState) (p : Pos),
      cellsGet s p = none ∨ cellsGet s p = some none → lookupRef f s p = (.ok (some 0), s)) ∧
    (∀ (f : Nat) (s : SheetState) (p : Pos),
      cellsGet s p = some (some .empty) → lookupRef f s p = (.ok (some 0), s)) ∧
    (∀ (f : Nat) (s : SheetState) (p : Pos) (t : String),
      cellsGet s p = some (some (.text t)) →
      lookupRef f s p =
        ((if escapeStrip t = "" then .ok (some 0)
          else
            match parseDouble (escapeStrip t) with
            | some q => .ok (some q)
            | none => .error .Value), s)) ∧
    (∀ (f : Nat) (s : SheetState) (p : Pos) (ast : Expr) (e : FError),
      cellsGet s p = some (some (.formula ast (some (.err e)))) →
      lookupRef f s p = (.error e, s)) ∧
    (∀ e : FError, lookupConvert (.err e) = .error e) ∧
    lookupConvert (.num none) = .error .Div0 ∧
    setCell sheetEmpty pA1 "=1/0" = .ok c7s1 ∧
    getValueAt 10 c7s1 pA1 = .err .Div0 ∧
    setCell c7s1 pB1 "=A1+1" = .ok c7s2 ∧
    getValueAt 10 c7s2 pB1 = .err .Div0 := by
  refine ⟨?_, ?_, ?_, ?_, fun e => rfl, rfl, by decide, by decide, by decide, by decide⟩
  · intro f s p h
    unfold lookupRef
    rcases h with h | h <;> rw [h]
  · intro f s p h
    unfold lookupRef
    rw [h]
    have hcv : cellValue f s p .empty = (.text "", s) := by cases f <;> rfl
    show (lookupConvert (cellValue f s p .empty).1, (cellValue f s p .empty).2)
      = (Except.ok (some 0), s)
    rw [hcv]
    rfl
  · intro f s p t h
    unfold lookupRef
    rw [h]
    have hcv : cellValue f s p (.text t) = (.text (escapeStrip t), s) := by cases f <;> rfl
    show (lookupConvert (cellValue f s p (.text t)).1, (cellValue f s p (.text t)).2) = _
    rw [hcv]
    rfl
  · intro f s p ast e h
    unfold lookupRef
    rw [h]
    have hcv : cellValue f s p (.formula ast (some (.err e))) = (.err e, s) := by
      cases f <;> rfl
    show (lookupConvert (cellValue f s p (.formula ast (some (.err e)))).1,
      (cellValue f s p (.formula ast (some (.err e)))).2) = (Except.error e, s)
    rw [hcv]
    rfl

/-- C7 witness: on the fresh sheet, looking up the untouched `A1`
contributes `0.0` without changing the state. -/
theorem C7_lookup_semantics_witness :
    lookupRef 5 sheetEmpty pA1 = (.ok (some 0), sheetEmpty) :=
  C7_lookup_semantics.1 5 sheetEmpty pA1 (Or.inl rfl)

theorem check_of_rpath {s : SheetState} {pos : Pos} {l : List Pos} {q : Pos}
    (hp : RPath s pos q l) :
    ∀ (f : Nat) (c : Cell), l.length < f → q ∈ c.refs →
      checkCircular f s pos (some c) = true := by
  induction hp with
  | base =>
    intro f c hf hq
    cases f with
    | zero => simp at hf
    | succ f =>
      simp only [checkCircular]
      rw [List.any_eq_true]
      exact ⟨pos, hq, by simp⟩
  | step hcell hqref hrest ih =>
    rename_i p0 q0 l0 c0
    intro f c hf hq
    cases f with
    | zero => simp at hf
    | succ f =>
      simp only [checkCircular]
      rw [List.any_eq_true]
      refine ⟨p0, hq, ?_⟩
      by_cases hp2 : p0 = pos
      · simp [hp2]
      · rw [if_neg hp2, hcell]
        exact ih f c0 (by simpa using Nat.lt_of_succ_lt_succ hf) hqref

theorem rpath_of_check {s : SheetState} {pos : Pos} :
    ∀ (f : Nat) (c : Cell), checkCircular f s pos (some c) = true →
      ∃ q ∈ c.refs, ∃ l, RPath s pos q l := by
  intro f
  induction f with
  | zero => intro c h; cases h
  | succ f ih =>
    intro c h
    simp only [checkCircular] at h
    rw [List.any_eq_true] at h
    obtain ⟨q, hq, hcond⟩ := h
    by_cases hqpos : q = pos
    · exact ⟨q, hq, [], hqpos ▸ RPath.base⟩
    · rw [if_neg hqpos] at hcond
      cases hg : cellsGet s q with
      | none => rw [hg] at hcond; cases hcond
      | some oc =>
        rw [hg] at hcond
        cases oc with
        | none =>
          have hnone : checkCircular f s pos none = false := by cases f <;> rfl
          have hcond2 : checkCircular f s pos none = true := hcond
          rw [hnone] at hcond2
          cases hcond2
        | some c2 =>
          obtain ⟨q2, hq2, l2, hpath⟩ := ih c2 hcond
          exact ⟨q, hq, q :: l2, RPath.step hg hq2 hpath⟩

theorem rpath_suffix {s : SheetState} {pos : Pos} {y : Pos} {b : List Pos} :
    ∀ (u : List Pos) (x : Pos), RPath s pos x (u ++ y :: b) → RPath s pos y (y :: b) := by
  intro u
  induction u with
  | nil =>
    intro x hp
    rw [List.nil_append] at hp
    cases hp with
    | step hcell hqref hrest => exact RPath.step hcell hqref hrest
  | cons a0 u' ih =>
    intro x hp
    rw [List.cons_append] at hp
    cases hp with
    | step hcell hqref hrest => exact ih _ hrest

theorem rpath_shorten {s : SheetState} {pos : Pos} :
    ∀ (n : Nat) (l : List Pos) (q : Pos), l.length ≤ n → RPath s pos q l →
      ∃ l2, RPath s pos q l2 ∧ l2.Nodup ∧ l2.length ≤ l.length := by
  intro n
  induction n with
  | zero =>
    intro l q hlen hp
    have hnil : l = [] := List.eq_nil_of_length_eq_zero (Nat.le_zero.mp hlen)
    subst hnil
    exact ⟨[], hp, List.nodup_nil, le_refl _⟩
  | succ n ih =>
    intro l q hlen hp
    cases hp with
    | base => exact ⟨[], RPath.base, List.nodup_nil, by simp⟩
    | step hcell hqref hrest =>
      rename_i q2 l3 c2
      have hlen3 : l3.length ≤ n := by simpa using Nat.le_of_succ_le_succ hlen
      obtain ⟨l4, hp4, hnd4, hle4⟩ := ih l3 q2 hlen3 hrest
      by_cases hqmem : q ∈ l4
      · obtain ⟨u, w, huw⟩ := List.append_of_mem hqmem
        subst huw
        have hsu : RPath s pos q (q :: w) := rpath_suffix u q2 hp4
        have hnd : (q :: w).Nodup := (List.nodup_append.mp hnd4).2.1
        have hlw : (u ++ q :: w).length = u.length + w.length + 1 := by
          simp [List.length_append]
          omega
        refine ⟨q :: w, hsu, hnd, ?_⟩
        simp only [List.length_cons]
        rw [hlw] at hle4
        omega
      · refine ⟨q :: l4, RPath.step hcell hqref hp4, ?_, ?_⟩
        · exact List.nodup_cons.mpr ⟨hqmem, hnd4⟩
        · simp only [List.length_cons]
          omega

theorem rpath_mem_cells {s : SheetState} {pos : Pos} {q : Pos} {l : List Pos}
    (hp : RPath s pos q l) : ∀ x ∈ l, ∃ c, cellsGet s x = some (some c) := by
  induction hp with
  | base => intro x hx; cases hx
  | step hcell hqref hrest ih =>
    intro x hx
    rcases List.mem_cons.mp hx with hx | hx
    · exact ⟨_, hx ▸ hcell⟩
    · exact ih x hx

theorem nodup_rpath_length {s : SheetState} {pos : Pos} {q : Pos} {l : List Pos}
    (hp : RPath s pos q l) (hnd : l.Nodup) : l.length ≤ s.cells.length := by
  have hsub : ∀ x ∈ l, x ∈ s.cells.map Prod.fst := by
    intro x hx
    obtain ⟨c, hc⟩ := rpath_mem_cells hp x hx
    exact List.mem_map_of_mem Prod.fst (assocGet_mem hc)
  calc l.length = l.toFinset.card := (List.toFinset_card_of_nodup hnd).symm
    _ ≤ (s.cells.map Prod.fst).toFinset.card := by
        apply Finset.card_le_card
        intro x hx
        rw [List.mem_toFinset] at hx ⊢
        exact hsub x hx
    _ ≤ (s.cells.map Prod.fst).length := List.toFinset_card_le _
    _ = s.cells.length := List.length_map _ _

/-- C4: for a sheet state satisfying the acyclicity invariant, a valid
position and a successfully parsed candidate, `SetCell` fails with
`CircularDependency` exactly when `pos` is reachable from some position in
the candidate's referenced cells by following the *stored* cells'
reference edges (`pos` itself in the referenced list is the trivial
self-cycle, the base case of the reachability).  The walk never expands
the content stored at `pos` — reaching `pos` is itself the failure — and
the engine's fuel `cells.length + 1` suffices because any reach is
witnessed by a duplicate-free path over stored cells, so the proof does
not even need the acyclicity hypothesis for termination of the model. -/
theorem C4_cycle_check_iff (s : SheetState) (pos : Pos) (t : String) (cand : Cell)
    (hv : pos.isValid = true) (hmk : mkCell t = some cand) (hac : Acyclic s) :
    setCell s pos t = .error .circularDependency ↔ ∃ r ∈ cand.refs, Reaches s pos r := by
  constructor
  · intro h
    unfold setCell at h
    rw [if_neg (by simp [hv]), hmk] at h
    have h2 : (if checkCircular (s.cells.length + 1) s pos (some cand) = true
        then Except.error SheetErr.circularDependency
        else Except.ok (setCellCommit s pos cand)) = Except.error SheetErr.circularDependency := h
    by_cases hc : checkCircular (s.cells.length + 1) s pos (some cand) = true
    · obtain ⟨q, hq, l, hp⟩ := rpath_of_check _ _ hc
      exact ⟨q, hq, l, hp⟩
    · rw [if_neg hc] at h2
      cases h2
  · rintro ⟨r, hr, l, hp⟩
    obtain ⟨l2, hp2, hnd2, _⟩ := rpath_shorten l.length l r (le_refl _) hp
    have hlen : l2.length < s.cells.length + 1 :=
      Nat.lt_succ_of_le (nodup_rpath_length hp2 hnd2)
    have hc := check_of_rpath hp2 (s.cells.length + 1) cand hlen hr
    unfold setCell
    rw [if_neg (by simp [hv]), hmk]
    show (if checkCircular (s.cells.length + 1) s pos (some cand) = true
        then Except.error SheetErr.circularDependency
        else Except.ok (setCellCommit s pos cand)) = Except.error SheetErr.circularDependency
    rw [if_pos hc]

/-- C4 witness: on the fresh (trivially acyclic) sheet, writing `=A1` into
`A1` itself is the trivial self-cycle and `SetCell` fails with
`CircularDependency`. -/
theorem C4_cycle_check_iff_witness :
    setCell sheetEmpty pA1 "=A1" = .error .circularDependency := by
  have hac : Acyclic sheetEmpty := by
    intro p q hedge hre
    obtain ⟨c, hc, _⟩ := hedge
    simp [cellsGet, sheetEmpty, assocGet] at hc
  exact (C4_cycle_check_iff sheetEmpty pA1 "=A1" (.formula (.cell pA1) none)
    (by decide) (by decide) hac).mpr ⟨pA1, by decide, [], RPath.base⟩

theorem countP_assocSet {α β : Type} [DecidableEq α] (l : List (α × β)) (k : α) (v : β)
    (Q : α × β → Bool) :
    (assocSet l k v).countP Q
      + (match assocGet l k with
         | some w => if Q (k, w) then 1 else 0
         | none => 0)
      = l.countP Q + (if Q (k, v) then 1 else 0) := by
  induction l with
  | nil =>
    by_cases hv : Q (k, v) <;> simp [assocSet, assocGet, List.countP_cons, hv]
  | cons e t ih =>
    obtain ⟨a, b⟩ := e
    by_cases hak : a = k
    · subst hak
      rw [assocSet_cons_self, assocGet_cons_self]
      rw [List.countP_cons, List.countP_cons]
      by_cases hv : Q (a, v) <;> by_cases hb : Q (a, b) <;> simp [hv, hb] <;> omega
    · rw [assocSet_cons_ne _ _ _ hak, assocGet_cons_ne _ _ hak]
      rw [List.countP_cons, List.countP_cons]
      cases hm : assocGet t k with
      | none =>
        rw [hm] at ih
        by_cases hv : Q (k, v) <;> by_cases hb : Q (a, b) <;>
          simp only [hv, hb, if_true, if_false] at ih ⊢ <;> omega
      | some w =>
        rw [hm] at ih
        by_cases hw : Q (k, w) <;> by_cases hv : Q (k, v) <;> by_cases hb : Q (a, b) <;>
          simp only [hw, hv, hb, if_true, if_false] at ih ⊢ <;> omega

theorem cntVal_cntInc (l : List (Int × Nat)) (k x : Int) :
    cntVal (cntInc l k) x = if x = k then cntVal l k + 1 else cntVal l x := by
  unfold cntInc
  split
  next n hm =>
    unfold cntVal
    rw [assocGet_assocSet]
    by_cases hx : x = k <;> simp [hx, hm]
  next hm =>
    unfold cntVal
    rw [assocGet_assocSet]
    by_cases hx : x = k <;> simp [hx, hm]

theorem cntVal_cntDec (l : List (Int × Nat)) (hwf : cntWF l) (k x : Int) :
    cntVal (cntDec l k) x = if x = k then cntVal l k - 1 else cntVal l x := by
  unfold cntDec
  split
  next n hm =>
    split
    next hn =>
      unfold cntVal
      rw [assocGet_assocErase hwf.1]
      by_cases hx : x = k <;> simp [hx, hm, hn]
    next hn =>
      unfold cntVal
      rw [assocGet_assocSet]
      by_cases hx : x = k <;> simp [hx, hm]
  next hm =>
    unfold cntVal
    by_cases hx : x = k <;> simp [hx, hm]

theorem cntWF_cntInc (l : List (Int × Nat)) (hwf : cntWF l) (k : Int) :
    cntWF (cntInc l k) := by
  unfold cntInc
  cases hm : assocGet l k with
  | none =>
    refine ⟨assocSet_nodup_fst _ hwf.1, ?_⟩
    intro e he
    rcases assocSet_mem he with he | he
    · rw [he]
    · exact hwf.2 e he
  | some n =>
    refine ⟨assocSet_nodup_fst _ hwf.1, ?_⟩
    intro e he
    rcases assocSet_mem he with he | he
    · rw [he]
      omega
    · exact hwf.2 e he

theorem cntWF_cntDec (l : List (Int × Nat)) (hwf : cntWF l) (k : Int) :
    cntWF (cntDec l k) := by
  unfold cntDec
  split
  next n hm =>
    split
    next hn =>
      constructor
      · exact ((assocErase_sublist l k).map Prod.fst).nodup hwf.1
      · intro e he
        exact hwf.2 e ((assocErase_sublist l k).subset he)
    next hn =>
      refine ⟨assocSet_nodup_fst _ hwf.1, ?_⟩
      intro e he
      rcases assocSet_mem he with he | he
      · rw [he]
        have h1 := hwf.2 _ (assocGet_mem hm)
        simp only at h1
        simp only
        omega
      · exact hwf.2 e he
  next hm => exact hwf

theorem assocGet_of_mem_nodup {α β : Type} [DecidableEq α] {l : List (α × β)}
    (hnd : (l.map Prod.fst).Nodup) {k : α} {v : β} (h : (k, v) ∈ l) :
    assocGet l k = some v := by
  induction l with
  | nil => cases h
  | cons e t ih =>
    obtain ⟨a, b⟩ := e
    rw [List.map_cons, List.nodup_cons] at hnd
    rcases List.mem_cons.mp h with h | h
    · injection h with h1 h2
      subst h1
      subst h2
      exact assocGet_cons_self _ _ _
    · have hak : ¬ a = k := by
        intro hak
        subst hak
        have hmem : a ∈ List.map Prod.fst t := List.mem_map.mpr ⟨(a, v), h, rfl⟩
        exact absurd hmem (by simpa using hnd.1)
      rw [assocGet_cons_ne _ _ hak]
      exact ih hnd.2 h

theorem cntVal_pos_iff_mem (l : List (Int × Nat)) (hwf : cntWF l) (k : Int) :
    1 ≤ cntVal l k ↔ k ∈ l.map Prod.fst := by
  constructor
  · intro h
    unfold cntVal at h
    cases hm : assocGet l k with
    | none => rw [hm] at h; simp at h
    | some n => exact List.mem_map_of_mem Prod.fst (assocGet_mem hm)
  · intro h
    rcases List.mem_map.mp h with ⟨⟨k2, n⟩, hm, hk⟩
    simp only at hk
    subst hk
    unfold cntVal
    rw [assocGet_of_mem_nodup hwf.1 hm]
    exact hwf.2 _ hm

theorem nonEmptyB_skel (oc : Option Cell) : nonEmptySB (oc.map cellSkel) = nonEmptyB oc := by
  cases oc with
  | none => rfl
  | some c => cases c <;> rfl

theorem rowCnt_skel {s1 s2 : SheetState} (h : skel s1 = skel s2) (r : Int) :
    rowCnt s1 r = rowCnt s2 r := by
  have key : ∀ s : SheetState,
      rowCnt s r = (skel s).cells.countP (fun e => nonEmptySB e.2 && decide (e.1.row = r)) := by
    intro s
    unfold rowCnt skel
    simp only
    rw [List.countP_map]
    have hfun : ((fun e : Pos × Option CellS => nonEmptySB e.2 && decide (e.1.row = r)) ∘
        (fun e : Pos × Option Cell => (e.1, e.2.map cellSkel)))
        = (fun e : Pos × Option Cell => nonEmptyB e.2 && decide (e.1.row = r)) := by
      funext e
      simp [Function.comp, nonEmptyB_skel]
    rw [hfun]
  rw [key s1, key s2, h]

theorem colCnt_skel {s1 s2 : SheetState} (h : skel s1 = skel s2) (k : Int) :
    colCnt s1 k = colCnt s2 k := by
  have key : ∀ s : SheetState,
      colCnt s k = (skel s).cells.countP (fun e => nonEmptySB e.2 && decide (e.1.col = k)) := by
    intro s
    unfold colCnt skel
    simp only
    rw [List.countP_map]
    have hfun : ((fun e : Pos × Option CellS => nonEmptySB e.2 && decide (e.1.col = k)) ∘
        (fun e : Pos × Option Cell => (e.1, e.2.map cellSkel)))
        = (fun e : Pos × Option Cell => nonEmptyB e.2 && decide (e.1.col = k)) := by
      funext e
      simp [Function.comp, nonEmptyB_skel]
    rw [hfun]
  rw [key s1, key s2, h]

theorem cells_fst_skel (s : SheetState) :
    (skel s).cells.map Prod.fst = s.cells.map Prod.fst := by
  unfold skel
  simp only [List.map_map]
  rfl

theorem area_skel {s1 s2 : SheetState} (h : skel s1 = skel s2) : s1.area = s2.area :=
  congrArg SkelState.area h

theorem deps_skel {s1 s2 : SheetState} (h : skel s1 = skel s2) : s1.deps = s2.deps :=
  congrArg SkelState.deps h

theorem depsGet_congr {s1 s2 : SheetState} (h : s1.deps = s2.deps) (p : Pos) :
    depsGet s1 p = depsGet s2 p := by
  unfold depsGet
  rw [h]

theorem cellsGet_formula_of_skel {s1 s2 : SheetState} (h : skel s1 = skel s2) {p : Pos}
    {ast : Expr} {ca : Option CVal}
    (h2 : cellsGet s2 p = some (some (.formula ast ca))) :
    ∃ ca2, cellsGet s1 p = some (some (.formula ast ca2)) := by
  have hm : (cellsGet s1 p).map (Option.map cellSkel) = (cellsGet s2 p).map (Option.map cellSkel) := by
    rw [← skel_cellsGet, ← skel_cellsGet, h]
  rw [h2] at hm
  cases hg : cellsGet s1 p with
  | none => rw [hg] at hm; simp [cellSkel] at hm
  | some oc =>
    cases oc with
    | none => rw [hg] at hm; simp [cellSkel] at hm
    | some c =>
      rw [hg] at hm
      cases c with
      | empty => simp [cellSkel] at hm
      | text t2 => simp [cellSkel] at hm
      | formula ast2 ca2 =>
        simp only [cellSkel, Option.map_some', Option.some.injEq, CellS.f.injEq] at hm
        exact ⟨ca2, by rw [hm]⟩

theorem sheetInv_skel {s1 s2 : SheetState} (h : skel s1 = skel s2) (hI : SheetInv s2) :
    SheetInv s1 := by
  obtain ⟨hwf, ⟨har, hac, hvr, hvc⟩, hnd, hdi⟩ := hI
  have harea := area_skel h
  have hdeps := deps_skel h
  refine ⟨?_, ⟨?_, ?_, ?_, ?_⟩, ?_, ?_⟩
  · unfold CellsWF
    rw [← cells_fst_skel s1, h, cells_fst_skel s2]
    exact hwf
  · rw [harea]; exact har
  · rw [harea]; exact hac
  · intro r
    rw [harea, rowCnt_skel h]
    exact hvr r
  · intro k
    rw [harea, colCnt_skel h]
    exact hvc k
  · intro R
    rw [depsGet_congr hdeps]
    exact hnd R
  · intro R p hp
    rw [depsGet_congr hdeps] at hp
    obtain ⟨ast, ca, hc, hr⟩ := hdi R p hp
    obtain ⟨ca2, hc2⟩ := cellsGet_formula_of_skel h hc
    exact ⟨ast, ca2, hc2, hr⟩

theorem foldl_max_le_init (t : List (Int × Nat)) :
    ∀ a : Int, a ≤ t.foldl (fun x e => max x e.1) a := by
  induction t with
  | nil => intro a; exact le_refl a
  | cons e t ih =>
    intro a
    exact le_trans (le_max_left a e.1) (ih (max a e.1))

theorem foldl_max_mem {t : List (Int × Nat)} {k : Int} {n : Nat} (h : (k, n) ∈ t) :
    ∀ a : Int, k ≤ t.foldl (fun x e => max x e.1) a := by
  induction t with
  | nil => cases h
  | cons e t ih =>
    intro a
    rcases List.mem_cons.mp h with h | h
    · subst h
      exact le_trans (le_max_right a k) (foldl_max_le_init t _)
    · exact ih h _

theorem foldl_max_attained (t : List (Int × Nat)) :
    ∀ a : Int, t.foldl (fun x e => max x e.1) a = a ∨
      ∃ e ∈ t, t.foldl (fun x e => max x e.1) a = e.1 := by
  induction t with
  | nil => intro a; exact Or.inl rfl
  | cons e t ih =>
    intro a
    rcases ih (max a e.1) with h | h
    · by_cases he : e.1 ≤ a
      · left
        simp only [List.foldl_cons]
        rw [h, max_eq_left he]
      · right
        refine ⟨e, List.mem_cons_self _ _, ?_⟩
        simp only [List.foldl_cons]
        rw [h, max_eq_right (le_of_not_le he)]
    · obtain ⟨e2, he2, hf⟩ := h
      right
      exact ⟨e2, List.mem_cons_of_mem _ he2, hf⟩

theorem axisSize_cover {l : List (Int × Nat)} (hwf : cntWF l) {k : Int}
    (h : 1 ≤ cntVal l k) : k < axisSize l := by
  have hm := (cntVal_pos_iff_mem l hwf k).mp h
  cases l with
  | nil => simp at hm
  | cons e t =>
    obtain ⟨k0, n0⟩ := e
    show k < List.foldl (fun a e => max a e.1) k0 t + 1
    rcases List.mem_map.mp hm with ⟨⟨k2, n2⟩, hmem, hk2⟩
    simp only at hk2
    subst hk2
    rcases List.mem_cons.mp hmem with hh | hh
    · injection hh with h1 h2
      have := foldl_max_le_init t k0
      omega
    · have := foldl_max_mem hh k0
      omega

theorem axisSize_tight {l : List (Int × Nat)} (h : l ≠ []) :
    ∃ k n, (k, n) ∈ l ∧ axisSize l = k + 1 := by
  cases l with
  | nil => exact absurd rfl h
  | cons e t =>
    obtain ⟨k0, n0⟩ := e
    have hax : axisSize ((k0, n0) :: t) = List.foldl (fun a e => max a e.1) k0 t + 1 := rfl
    rcases foldl_max_attained t k0 with hf | ⟨e2, he2, hf⟩
    · exact ⟨k0, n0, List.mem_cons_self _ _, by rw [hax, hf]⟩
    · exact ⟨e2.1, e2.2, List.mem_cons_of_mem _ (by simpa using he2), by rw [hax, hf]⟩

theorem depsGet_removeDep (s : SheetState) (p pos R : Pos) :
    depsGet (removeDep s p pos) R
      = if R = p then (depsGet s p).erase pos else depsGet s R := by
  unfold removeDep depsGet
  simp only
  rw [assocGet_assocSet]
  by_cases h : R = p
  · subst h
    rw [if_pos rfl, if_pos rfl]
    rfl
  · rw [if_neg h, if_neg h]

theorem depsGet_addDep (s : SheetState) (p pos R : Pos) :
    depsGet (addDep s p pos) R
      = if R = p then (if pos ∈ depsGet s p then depsGet s p else pos :: depsGet s p)
        else depsGet s R := by
  unfold addDep depsGet
  simp only
  rw [assocGet_assocSet]
  by_cases h : R = p
  · subst h
    rw [if_pos rfl, if_pos rfl]
    rfl
  · rw [if_neg h, if_neg h]

theorem DepsND_removeDep {s : SheetState} (h : DepsND s) (p pos : Pos) :
    DepsND (removeDep s p pos) := by
  intro R
  rw [depsGet_removeDep]
  by_cases hr : R = p
  · rw [if_pos hr]
    exact (h p).erase pos
  · rw [if_neg hr]
    exact h R

theorem DepsND_addDep {s : SheetState} (h : DepsND s) (p pos : Pos) :
    DepsND (addDep s p pos) := by
  intro R
  rw [depsGet_addDep]
  by_cases hr : R = p
  · rw [if_pos hr]
    by_cases hm : pos ∈ depsGet s p
    · rw [if_pos hm]
      exact h p
    · rw [if_neg hm]
      exact List.nodup_cons.mpr ⟨hm, h p⟩
  · rw [if_neg hr]
    exact h R

theorem removeDep_fold_mem (pos R p' : Pos) :
    ∀ (rs : List Pos) (s : SheetState), DepsND s →
      p' ∈ depsGet (rs.foldl (fun s p => removeDep s p pos) s) R →
      p' ∈ depsGet s R ∧ (p' = pos → R ∉ rs) := by
  intro rs
  induction rs with
  | nil =>
    intro s hnd h
    exact ⟨h, fun _ => List.not_mem_nil R⟩
  | cons a t ih =>
    intro s hnd h
    rw [List.foldl_cons] at h
    obtain ⟨h1, h2⟩ := ih (removeDep s a pos) (DepsND_removeDep hnd a pos) h
    rw [depsGet_removeDep] at h1
    by_cases hRa : R = a
    · subst hRa
      rw [if_pos rfl] at h1
      have hmem := (List.Nodup.mem_erase_iff (hnd R)).mp h1
      exact ⟨hmem.2, fun hp => absurd hp hmem.1⟩
    · rw [if_neg hRa] at h1
      refine ⟨h1, fun hp hmem => ?_⟩
      rcases List.mem_cons.mp hmem with hc | hc
      · exact hRa hc
      · exact (h2 hp) hc

theorem addDep_fold_mem (pos R p' : Pos) :
    ∀ (rs : List Pos) (s : SheetState),
      p' ∈ depsGet (rs.foldl (fun s p => addDep s p pos) s) R →
      p' ∈ depsGet s R ∨ (p' = pos ∧ R ∈ rs) := by
  intro rs
  induction rs with
  | nil =>
    intro s h
    exact Or.inl h
  | cons a t ih =>
    intro s h
    rw [List.foldl_cons] at h
    rcases ih (addDep s a pos) h with h1 | h1
    · rw [depsGet_addDep] at h1
      by_cases hRa : R = a
      · rw [if_pos hRa] at h1
        by_cases hm : pos ∈ depsGet s a
        · rw [if_pos hm] at h1
          exact Or.inl (by rw [hRa]; exact h1)
        · rw [if_neg hm] at h1
          rcases List.mem_cons.mp h1 with hh | hh
          · exact Or.inr ⟨hh, by rw [hRa]; exact List.mem_cons_self a t⟩
          · exact Or.inl (by rw [hRa]; exact hh)
      · rw [if_neg hRa] at h1
        exact Or.inl h1
    · exact Or.inr ⟨h1.1, List.mem_cons_of_mem _ h1.2⟩

theorem DepsND_fold_removeDep {s : SheetState} (h : DepsND s) (pos : Pos) (rs : List Pos) :
    DepsND (rs.foldl (fun s p => removeDep s p pos) s) :=
  foldl_preserves DepsND _ (fun s a hs => DepsND_removeDep hs a pos) rs s h

theorem DepsND_fold_addDep {s : SheetState} (h : DepsND s) (pos : Pos) (rs : List Pos) :
    DepsND (rs.foldl (fun s p => addDep s p pos) s) :=
  foldl_preserves DepsND _ (fun s a hs => DepsND_addDep hs a pos) rs s h

theorem removeDependencies_area (s : SheetState) (pos : Pos) (c : Cell) :
    (removeDependencies s pos c).area = s.area := by
  unfold removeDependencies
  exact foldl_preserves (fun s2 : SheetState => s2.area = s.area) (fun s2 p => removeDep s2 p pos)
    (fun s2 p hs => hs) c.refs s rfl

theorem addDependencies_area (s : SheetState) (pos : Pos) (c : Cell) :
    (addDependencies s pos c).area = s.area := by
  unfold addDependencies
  exact foldl_preserves (fun s2 : SheetState => s2.area = s.area) (fun s2 p => addDep s2 p pos)
    (fun s2 p hs => hs) c.refs s rfl

theorem makeEmpty_area (s : SheetState) (c : Cell) :
    (makeEmptyDependentCells s c).area = s.area := by
  unfold makeEmptyDependentCells
  refine foldl_preserves (fun s' => s'.area = s.area) _ ?_ c.refs s rfl
  intro s' p hs
  cases hg : cellsGet s' p with
  | none => exact hs
  | some oc => cases oc with
    | none => exact hs
    | some c2 => simp only [hg]; exact hs

theorem makeEmpty_deps (s : SheetState) (c : Cell) :
    (makeEmptyDependentCells s c).deps = s.deps := by
  unfold makeEmptyDependentCells
  refine foldl_preserves (fun s' => s'.deps = s.deps) _ ?_ c.refs s rfl
  intro s' p hs
  cases hg : cellsGet s' p with
  | none => exact hs
  | some oc => cases oc with
    | none => exact hs
    | some c2 => simp only [hg]; exact hs

theorem rowCnt_cellsSet (s : SheetState) (p : Pos) (v : Option Cell) (r : Int) :
    rowCnt (cellsSet s p v) r
      + (match cellsGet s p with
         | some w => if nonEmptyB w && decide (p.row = r) then 1 else 0
         | none => 0)
      = rowCnt s r + (if nonEmptyB v && decide (p.row = r) then 1 else 0) := by
  have h := countP_assocSet s.cells p v (fun e => nonEmptyB e.2 && decide (e.1.row = r))
  unfold rowCnt cellsSet cellsGet
  cases hm : assocGet s.cells p with
  | none => rw [hm] at h; simpa using h
  | some w => rw [hm] at h; simpa using h

theorem colCnt_cellsSet (s : SheetState) (p : Pos) (v : Option Cell) (k : Int) :
    colCnt (cellsSet s p v) k
      + (match cellsGet s p with
         | some w => if nonEmptyB w && decide (p.col = k) then 1 else 0
         | none => 0)
      = colCnt s k + (if nonEmptyB v && decide (p.col = k) then 1 else 0) := by
  have h := countP_assocSet s.cells p v (fun e => nonEmptyB e.2 && decide (e.1.col = k))
  unfold colCnt cellsSet cellsGet
  cases hm : assocGet s.cells p with
  | none => rw [hm] at h; simpa using h
  | some w => rw [hm] at h; simpa using h

theorem CellsWF_cellsSet {s : SheetState} (h : CellsWF s) (p : Pos) (v : Option Cell) :
    CellsWF (cellsSet s p v) :=
  assocSet_nodup_fst _ h

theorem makeEmpty_counts {s : SheetState} (c : Cell)
    (hwf : CellsWF s) :
    CellsWF (makeEmptyDependentCells s c) ∧
    (∀ r, rowCnt (makeEmptyDependentCells s c) r = rowCnt s r) ∧
    (∀ k, colCnt (makeEmptyDependentCells s c) k = colCnt s k) := by
  unfold makeEmptyDependentCells
  refine foldl_preserves
    (fun s' => CellsWF s' ∧ (∀ r, rowCnt s' r = rowCnt s r) ∧ (∀ k, colCnt s' k = colCnt s k))
    _ ?_ c.refs s ⟨hwf, fun _ => rfl, fun _ => rfl⟩
  intro s' p hs
  cases hg : cellsGet s' p with
  | none =>
    refine ⟨CellsWF_cellsSet hs.1 p _, ?_, ?_⟩
    · intro r
      have := rowCnt_cellsSet s' p (some .empty) r
      rw [hg] at this
      simp [nonEmptyB, Cell.isEmpty] at this
      rw [this]
      exact hs.2.1 r
    · intro k
      have := colCnt_cellsSet s' p (some .empty) k
      rw [hg] at this
      simp [nonEmptyB, Cell.isEmpty] at this
      rw [this]
      exact hs.2.2 k
  | some oc =>
    cases oc with
    | none =>
      simp only [hg]
      refine ⟨CellsWF_cellsSet hs.1 p _, ?_, ?_⟩
      · intro r
        have := rowCnt_cellsSet s' p (some .empty) r
        rw [hg] at this
        simp [nonEmptyB, Cell.isEmpty] at this
        rw [this]
        exact hs.2.1 r
      · intro k
        have := colCnt_cellsSet s' p (some .empty) k
        rw [hg] at this
        simp [nonEmptyB, Cell.isEmpty] at this
        rw [this]
        exact hs.2.2 k
    | some c2 =>
      simp only [hg]
      exact hs

theorem rowCnt_congr {s1 s2 : SheetState} (h : s1.cells = s2.cells) (r : Int) :
    rowCnt s1 r = rowCnt s2 r := by
  unfold rowCnt
  rw [h]

theorem colCnt_congr {s1 s2 : SheetState} (h : s1.cells = s2.cells) (k : Int) :
    colCnt s1 k = colCnt s2 k := by
  unfold colCnt
  rw [h]

theorem CellsWF_congr {s1 s2 : SheetState} (h : s1.cells = s2.cells) (hW : CellsWF s2) :
    CellsWF s1 := by
  unfold CellsWF
  rw [h]
  exact hW

theorem DepsND_congr {s1 s2 : SheetState} (h : s1.deps = s2.deps) (hW : DepsND s2) :
    DepsND s1 := by
  intro R
  rw [depsGet_congr h]
  exact hW R

theorem rowCnt_pos {s : SheetState} {pos : Pos} {old : Cell} {r : Int}
    (hg : cellsGet s pos = some (some old)) (hne : old.isEmpty = false) (hr : pos.row = r) :
    1 ≤ rowCnt s r := by
  unfold rowCnt
  rw [Nat.succ_le, List.countP_pos]
  exact ⟨(pos, some old), assocGet_mem hg, by simp [nonEmptyB, hne, hr]⟩

theorem colCnt_pos {s : SheetState} {pos : Pos} {old : Cell} {k : Int}
    (hg : cellsGet s pos = some (some old)) (hne : old.isEmpty = false) (hk : pos.col = k) :
    1 ≤ colCnt s k := by
  unfold colCnt
  rw [Nat.succ_le, List.countP_pos]
  exact ⟨(pos, some old), assocGet_mem hg, by simp [nonEmptyB, hne, hk]⟩

theorem setCellPrep_eq_none {s : SheetState} {pos : Pos} (hg : cellsGet s pos = none) :
    setCellPrep s pos = s := by
  unfold setCellPrep
  rw [hg]

theorem setCellPrep_eq_null {s : SheetState} {pos : Pos} (hg : cellsGet s pos = some none) :
    setCellPrep s pos = s := by
  unfold setCellPrep
  rw [hg]

theorem setCellPrep_eq_cell {s : SheetState} {pos : Pos} {old : Cell}
    (hg : cellsGet s pos = some (some old)) :
    setCellPrep s pos
      = if old.isEmpty then s else areaRemovePos (removeDependencies s pos old) pos := by
  unfold setCellPrep
  rw [hg]

theorem setCellPrep_facts {s : SheetState} (hI : SheetInv s) (pos : Pos) :
    (setCellPrep s pos).cells = s.cells ∧
    cntWF (setCellPrep s pos).area.rows ∧ cntWF (setCellPrep s pos).area.cols ∧
    (∀ r, cntVal (setCellPrep s pos).area.rows r
        = rowCnt s r
          - (if nonEmptyB ((cellsGet s pos).getD none) && decide (pos.row = r) then 1 else 0)) ∧
    (∀ k, cntVal (setCellPrep s pos).area.cols k
        = colCnt s k
          - (if nonEmptyB ((cellsGet s pos).getD none) && decide (pos.col = k) then 1 else 0)) ∧
    DepsND (setCellPrep s pos) ∧
    (∀ R p', p' ∈ depsGet (setCellPrep s pos) R → p' ∈ depsGet s R ∧ ¬ p' = pos) := by
  obtain ⟨hwf, ⟨harw, hacw, hvr, hvc⟩, hnd, hdi⟩ := hI
  cases hg : cellsGet s pos with
  | none =>
    rw [setCellPrep_eq_none hg]
    refine ⟨rfl, harw, hacw, ?_, ?_, hnd, ?_⟩
    · intro r
      simp [nonEmptyB, hvr r]
    · intro k
      simp [nonEmptyB, hvc k]
    · intro R p' hp
      refine ⟨hp, fun hpp => ?_⟩
      subst hpp
      obtain ⟨ast, ca, hc, _⟩ := hdi R p' hp
      rw [hg] at hc
      cases hc
  | some oc =>
    cases oc with
    | none =>
      rw [setCellPrep_eq_null hg]
      refine ⟨rfl, harw, hacw, ?_, ?_, hnd, ?_⟩
      · intro r
        simp [nonEmptyB, hvr r]
      · intro k
        simp [nonEmptyB, hvc k]
      · intro R p' hp
        refine ⟨hp, fun hpp => ?_⟩
        subst hpp
        obtain ⟨ast, ca, hc, _⟩ := hdi R p' hp
        rw [hg] at hc
        cases hc
    | some old =>
      rw [setCellPrep_eq_cell hg]
      by_cases hoe : old.isEmpty
      · rw [if_pos hoe]
        refine ⟨rfl, harw, hacw, ?_, ?_, hnd, ?_⟩
        · intro r
          simp [nonEmptyB, hoe, hvr r]
        · intro k
          simp [nonEmptyB, hoe, hvc k]
        · intro R p' hp
          refine ⟨hp, fun hpp => ?_⟩
          subst hpp
          obtain ⟨ast, ca, hc, _⟩ := hdi R p' hp
          rw [hg] at hc
          injection hc with hc
          injection hc with hc
          rw [hc] at hoe
          simp [Cell.isEmpty] at hoe
      · rw [if_neg hoe]
        have hone : nonEmptyB (some old) = true := by
          simp [nonEmptyB]
          exact Bool.eq_false_iff.mpr hoe
        have hcells : (areaRemovePos (removeDependencies s pos old) pos).cells = s.cells := by
          show (removeDependencies s pos old).cells = s.cells
          exact removeDependencies_cells s pos old
        have harea : (removeDependencies s pos old).area = s.area :=
          removeDependencies_area s pos old
        have hndr : DepsND (removeDependencies s pos old) := by
          unfold removeDependencies
          exact DepsND_fold_removeDep hnd pos old.refs
        refine ⟨hcells, ?_, ?_, ?_, ?_, hndr, ?_⟩
        · show cntWF (cntDec (removeDependencies s pos old).area.rows pos.row)
          rw [harea]
          exact cntWF_cntDec _ harw _
        · show cntWF (cntDec (removeDependencies s pos old).area.cols pos.col)
          rw [harea]
          exact cntWF_cntDec _ hacw _
        · intro r
          show cntVal (cntDec (removeDependencies s pos old).area.rows pos.row) r = _
          rw [harea, cntVal_cntDec _ harw]
          by_cases hr : r = pos.row
          · subst hr
            simp [hone, hvr]
          · have hd : ¬ pos.row = r := fun h => hr h.symm
            simp [hone, hvr, hr, hd]
        · intro k
          show cntVal (cntDec (removeDependencies s pos old).area.cols pos.col) k = _
          rw [harea, cntVal_cntDec _ hacw]
          by_cases hk : k = pos.col
          · subst hk
            simp [hone, hvc]
          · have hd : ¬ pos.col = k := fun h => hk h.symm
            simp [hone, hvc, hk, hd]
        · intro R p' hp
          have hp2 : p' ∈ depsGet (removeDependencies s pos old) R := hp
          unfold removeDependencies at hp2
          obtain ⟨hmem, hnp⟩ := removeDep_fold_mem pos R p' old.refs s hnd hp2
          refine ⟨hmem, fun hpp => ?_⟩
          subst hpp
          obtain ⟨ast, ca, hc, hr⟩ := hdi R p' hmem
          rw [hg] at hc
          injection hc with hc
          injection hc with hc
          have hro : R ∈ old.refs := by
            rw [hc]
            exact hr
          exact (hnp rfl) hro

theorem oldC_le_rowCnt (s : SheetState) (pos : Pos) (r : Int) :
    (if nonEmptyB ((cellsGet s pos).getD none) && decide (pos.row = r) then 1 else 0)
      ≤ rowCnt s r := by
  cases hg : cellsGet s pos with
  | none => simp [nonEmptyB]
  | some oc =>
    cases oc with
    | none => simp [nonEmptyB]
    | some old =>
      by_cases hne : old.isEmpty
      · simp [nonEmptyB, hne]
      · by_cases hr : pos.row = r
        · have hp := rowCnt_pos hg (Bool.eq_false_iff.mpr hne) hr
          simp [nonEmptyB, Bool.eq_false_iff.mpr hne, hr]
          exact hp
        · simp [hr]

theorem oldC_le_colCnt (s : SheetState) (pos : Pos) (k : Int) :
    (if nonEmptyB ((cellsGet s pos).getD none) && decide (pos.col = k) then 1 else 0)
      ≤ colCnt s k := by
  cases hg : cellsGet s pos with
  | none => simp [nonEmptyB]
  | some oc =>
    cases oc with
    | none => simp [nonEmptyB]
    | some old =>
      by_cases hne : old.isEmpty
      · simp [nonEmptyB, hne]
      · by_cases hk : pos.col = k
        · have hp := colCnt_pos hg (Bool.eq_false_iff.mpr hne) hk
          simp [nonEmptyB, Bool.eq_false_iff.mpr hne, hk]
          exact hp
        · simp [hk]

theorem sheetInv_invalidate {s : SheetState} (h : SheetInv s) (f : Nat) (p : Pos) :
    SheetInv (invalidateCache f s p) :=
  sheetInv_skel (invalidateCache_skel f s p) h

theorem setCellStage45_inv {s3 : SheetState} (pos : Pos) (c : Cell)
    (hW : CellsWF s3)
    (hwr : cntWF s3.area.rows) (hwc : cntWF s3.area.cols)
    (hvr : ∀ r, cntVal s3.area.rows r = rowCnt s3 r)
    (hvc : ∀ k, cntVal s3.area.cols k = colCnt s3 k)
    (hnd : DepsND s3)
    (hdm : ∀ R p', p' ∈ depsGet s3 R →
      (∃ ast ca, cellsGet s3 p' = some (some (.formula ast ca)) ∧
        R ∈ dedupAdjacent (astCells ast)) ∧ ¬ p' = pos)
    (hpos : cellsGet s3 pos = some (some c)) :
    SheetInv (addDependencies (makeEmptyDependentCells s3 c) pos c) := by
  obtain ⟨hW4, hr4, hc4⟩ := makeEmpty_counts c hW
  have ha4 : (makeEmptyDependentCells s3 c).area = s3.area := makeEmpty_area s3 c
  have hd4 : (makeEmptyDependentCells s3 c).deps = s3.deps := makeEmpty_deps s3 c
  have hc5 : (addDependencies (makeEmptyDependentCells s3 c) pos c).cells
      = (makeEmptyDependentCells s3 c).cells := addDependencies_cells _ pos c
  have ha5 : (addDependencies (makeEmptyDependentCells s3 c) pos c).area
      = (makeEmptyDependentCells s3 c).area := addDependencies_area _ pos c
  refine ⟨CellsWF_congr hc5 hW4, ⟨?_, ?_, ?_, ?_⟩, ?_, ?_⟩
  · rw [ha5, ha4]
    exact hwr
  · rw [ha5, ha4]
    exact hwc
  · intro r
    rw [ha5, ha4, hvr r, rowCnt_congr hc5 r, hr4 r]
  · intro k
    rw [ha5, ha4, hvc k, colCnt_congr hc5 k, hc4 k]
  · show DepsND ((Cell.refs c).foldl (fun s p => addDep s p pos) (makeEmptyDependentCells s3 c))
    exact DepsND_fold_addDep (DepsND_congr hd4 hnd) pos c.refs
  · intro R p' hp
    have hp2 : p' ∈ depsGet (makeEmptyDependentCells s3 c) R ∨ (p' = pos ∧ R ∈ c.refs) := by
      unfold addDependencies at hp
      exact addDep_fold_mem pos R p' c.refs _ hp
    rcases hp2 with hp2 | ⟨hpp, hR⟩
    · rw [depsGet_congr hd4] at hp2
      obtain ⟨⟨ast, ca, hcell, hRr⟩, hnp⟩ := hdm R p' hp2
      refine ⟨ast, ca, ?_, hRr⟩
      rw [cellsGet_congr hc5]
      exact makeEmpty_preserves_present hcell c
    · subst hpp
      cases c with
      | empty => simp [Cell.refs] at hR
      | text t => simp [Cell.refs] at hR
      | formula ast ca =>
        refine ⟨ast, ca, ?_, hR⟩
        rw [cellsGet_congr hc5]
        exact makeEmpty_preserves_present hpos (.formula ast ca)

theorem setCellStages_inv {s : SheetState} (hI : SheetInv s) (pos : Pos) (c : Cell) :
    SheetInv (addDependencies (makeEmptyDependentCells
      (if c.isEmpty then cellsSet (setCellPrep s pos) pos (some c)
       else areaAddPos (cellsSet (setCellPrep s pos) pos (some c)) pos) c) pos c) := by
  obtain ⟨hfc, hfwr, hfwc, hfvr, hfvc, hfnd, hfdm⟩ := setCellPrep_facts hI pos
  obtain ⟨hwf0, ⟨hwr0, hwc0, hvr0, hvc0⟩, hnd0, hdi0⟩ := hI
  have hW2 : CellsWF (cellsSet (setCellPrep s pos) pos (some c)) :=
    CellsWF_cellsSet (CellsWF_congr hfc hwf0) pos (some c)
  have hpos2 : cellsGet (cellsSet (setCellPrep s pos) pos (some c)) pos = some (some c) :=
    cellsGet_cellsSet_self _ _ _
  have hrow2 : ∀ r, rowCnt (cellsSet (setCellPrep s pos) pos (some c)) r
      + (if nonEmptyB ((cellsGet s pos).getD none) && decide (pos.row = r) then 1 else 0)
      = rowCnt s r + (if nonEmptyB (some c) && decide (pos.row = r) then 1 else 0) := by
    intro r
    have h := rowCnt_cellsSet (setCellPrep s pos) pos (some c) r
    rw [cellsGet_congr hfc pos, rowCnt_congr hfc r] at h
    cases hg : cellsGet s pos with
    | none => rw [hg] at h; simpa [nonEmptyB] using h
    | some w => rw [hg] at h; simpa using h
  have hcol2 : ∀ k, colCnt (cellsSet (setCellPrep s pos) pos (some c)) k
      + (if nonEmptyB ((cellsGet s pos).getD none) && decide (pos.col = k) then 1 else 0)
      = colCnt s k + (if nonEmptyB (some c) && decide (pos.col = k) then 1 else 0) := by
    intro k
    have h := colCnt_cellsSet (setCellPrep s pos) pos (some c) k
    rw [cellsGet_congr hfc pos, colCnt_congr hfc k] at h
    cases hg : cellsGet s pos with
    | none => rw [hg] at h; simpa [nonEmptyB] using h
    | some w => rw [hg] at h; simpa using h
  have hdm2 : ∀ R p', p' ∈ depsGet (cellsSet (setCellPrep s pos) pos (some c)) R →
      (∃ ast ca, cellsGet (cellsSet (setCellPrep s pos) pos (some c)) p'
          = some (some (.formula ast ca)) ∧ R ∈ dedupAdjacent (astCells ast)) ∧ ¬ p' = pos := by
    intro R p' hp
    obtain ⟨hmem, hnp⟩ := hfdm R p' hp
    obtain ⟨ast, ca, hcell, hRr⟩ := hdi0 R p' hmem
    refine ⟨⟨ast, ca, ?_, hRr⟩, hnp⟩
    rw [cellsGet_cellsSet_ne _ _ _ _ hnp, cellsGet_congr hfc]
    exact hcell
  by_cases hce : c.isEmpty
  · rw [if_pos hce]
    refine setCellStage45_inv pos c hW2 hfwr hfwc ?_ ?_ hfnd hdm2 hpos2
    · intro r
      show cntVal (setCellPrep s pos).area.rows r
        = rowCnt (cellsSet (setCellPrep s pos) pos (some c)) r
      rw [hfvr r]
      have h2 := hrow2 r
      have hle := oldC_le_rowCnt s pos r
      have hnewc : (if nonEmptyB (some c) && decide (pos.row = r) then 1 else 0) = 0 := by
        simp [nonEmptyB, hce]
      rw [hnewc] at h2
      omega
    · intro k
      show cntVal (setCellPrep s pos).area.cols k
        = colCnt (cellsSet (setCellPrep s pos) pos (some c)) k
      rw [hfvc k]
      have h2 := hcol2 k
      have hle := oldC_le_colCnt s pos k
      have hnewc : (if nonEmptyB (some c) && decide (pos.col = k) then 1 else 0) = 0 := by
        simp [nonEmptyB, hce]
      rw [hnewc] at h2
      omega
  · rw [if_neg hce]
    have hone : nonEmptyB (some c) = true := by
      simp [nonEmptyB]
      exact Bool.eq_false_iff.mpr hce
    refine setCellStage45_inv pos c hW2 ?_ ?_ ?_ ?_ hfnd hdm2 hpos2
    · show cntWF (cntInc (setCellPrep s pos).area.rows pos.row)
      exact cntWF_cntInc _ hfwr pos.row
    · show cntWF (cntInc (setCellPrep s pos).area.cols pos.col)
      exact cntWF_cntInc _ hfwc pos.col
    · intro r
      show cntVal (cntInc (setCellPrep s pos).area.rows pos.row) r
        = rowCnt (cellsSet (setCellPrep s pos) pos (some c)) r
      rw [cntVal_cntInc]
      have h2 := hrow2 r
      have hle := oldC_le_rowCnt s pos r
      rw [hone, Bool.true_and] at h2
      by_cases hr : r = pos.row
      · rw [if_pos hr, ← hr, hfvr r]
        have hdt : decide (pos.row = r) = true := decide_eq_true hr.symm
        rw [hdt] at h2 hle ⊢
        simp only [Bool.and_true, reduceIte] at h2 hle ⊢
        omega
      · have hdf : decide (pos.row = r) = false := decide_eq_false (fun h => hr h.symm)
        rw [if_neg hr, hfvr r, hdf]
        rw [hdf] at h2 hle
        simp only [Bool.and_false, Bool.false_eq_true, if_false] at h2 hle ⊢
        omega
    · intro k
      show cntVal (cntInc (setCellPrep s pos).area.cols pos.col) k
        = colCnt (cellsSet (setCellPrep s pos) pos (some c)) k
      rw [cntVal_cntInc]
      have h2 := hcol2 k
      have hle := oldC_le_colCnt s pos k
      rw [hone, Bool.true_and] at h2
      by_cases hk : k = pos.col
      · rw [if_pos hk, ← hk, hfvc k]
        have hdt : decide (pos.col = k) = true := decide_eq_true hk.symm
        rw [hdt] at h2 hle ⊢
        simp only [Bool.and_true, reduceIte] at h2 hle ⊢
        omega
      · have hdf : decide (pos.col = k) = false := decide_eq_false (fun h => hk h.symm)
        rw [if_neg hk, hfvc k, hdf]
        rw [hdf] at h2 hle
        simp only [Bool.and_false, Bool.false_eq_true, if_false] at h2 hle ⊢
        omega

theorem setCellCommit_inv {s : SheetState} (hI : SheetInv s) (pos : Pos) (c : Cell) :
    SheetInv (setCellCommit s pos c) := by
  unfold setCellCommit
  exact sheetInv_invalidate (setCellStages_inv hI pos c) _ pos

theorem removeDep_fold_area_comm (l : List Pos) (s : SheetState) (pos : Pos) :
    l.foldl (fun s2 p => removeDep s2 p pos) (areaRemovePos s pos)
      = areaRemovePos (l.foldl (fun s2 p => removeDep s2 p pos) s) pos := by
  induction l generalizing s with
  | nil => rfl
  | cons a t ih =>
    simp only [List.foldl_cons]
    rw [← ih (removeDep s a pos)]
    rfl

theorem clearCell_prep_eq {s : SheetState} {pos : Pos} {c : Cell}
    (hg : cellsGet s pos = some (some c)) :
    (if c.isEmpty then s else removeDependencies (areaRemovePos s pos) pos c)
      = setCellPrep s pos := by
  rw [setCellPrep_eq_cell hg]
  by_cases hce : c.isEmpty
  · rw [if_pos hce, if_pos hce]
  · rw [if_neg hce, if_neg hce]
    unfold removeDependencies
    exact removeDep_fold_area_comm c.refs s pos

theorem setCell_inv {s s' : SheetState} {pos : Pos} {t : String}
    (hI : SheetInv s) (h : setCell s pos t = .ok s') : SheetInv s' := by
  unfold setCell at h
  by_cases hv : ¬ pos.isValid
  · rw [if_pos hv] at h; exact absurd h (by simp)
  · rw [if_neg hv] at h
    cases hm : mkCell t with
    | none => rw [hm] at h; exact absurd h (by simp)
    | some c =>
      rw [hm] at h
      have h2 : (if checkCircular (s.cells.length + 1) s pos (some c) = true
          then (Except.error SheetErr.circularDependency : Except SheetErr SheetState)
          else Except.ok (setCellCommit s pos c)) = Except.ok s' := h
      by_cases hc : checkCircular (s.cells.length + 1) s pos (some c) = true
      · rw [if_pos hc] at h2; exact absurd h2 (by simp)
      · rw [if_neg hc] at h2
        simp only [Except.ok.injEq] at h2
        rw [← h2]
        exact setCellCommit_inv hI pos c

theorem clearCell_inv {s s' : SheetState} {pos : Pos}
    (hI : SheetInv s) (h : clearCell s pos = .ok s') : SheetInv s' := by
  unfold clearCell at h
  by_cases hv : ¬ pos.isValid
  · rw [if_pos hv] at h; exact absurd h (by simp)
  · rw [if_neg hv] at h
    simp only [Except.ok.injEq] at h
    cases hg : cellsGet s pos with
    | none =>
      rw [hg] at h
      have h2 : s = s' := h
      rw [← h2]; exact hI
    | some oc =>
      cases oc with
      | none =>
        rw [hg] at h
        have h2 : s = s' := h
        rw [← h2]; exact hI
      | some c =>
        rw [hg] at h
        have h3 : cellsSet
            (if c.isEmpty then s else removeDependencies (areaRemovePos s pos) pos c)
            pos none = s' := h
        rw [clearCell_prep_eq hg] at h3
        obtain ⟨hfc, hfwr, hfwc, hfvr, hfvc, hfnd, hfdm⟩ := setCellPrep_facts hI pos
        obtain ⟨hwf0, ⟨hwr0, hwc0, hvr0, hvc0⟩, hnd0, hdi0⟩ := hI
        rw [← h3]
        refine ⟨CellsWF_cellsSet (CellsWF_congr hfc hwf0) pos none,
          ⟨hfwr, hfwc, ?_, ?_⟩, hfnd, ?_⟩
        · intro r
          show cntVal (setCellPrep s pos).area.rows r
            = rowCnt (cellsSet (setCellPrep s pos) pos none) r
          rw [hfvr r, hg]
          simp only [Option.getD_some]
          have h2 := rowCnt_cellsSet (setCellPrep s pos) pos none r
          rw [cellsGet_congr hfc pos, rowCnt_congr hfc r, hg] at h2
          have h2b : rowCnt (cellsSet (setCellPrep s pos) pos none) r
              + (if nonEmptyB (some c) && decide (pos.row = r) then 1 else 0)
              = rowCnt s r := h2
          have hle := oldC_le_rowCnt s pos r
          rw [hg] at hle
          simp only [Option.getD_some] at hle
          omega
        · intro k
          show cntVal (setCellPrep s pos).area.cols k
            = colCnt (cellsSet (setCellPrep s pos) pos none) k
          rw [hfvc k, hg]
          simp only [Option.getD_some]
          have h2 := colCnt_cellsSet (setCellPrep s pos) pos none k
          rw [cellsGet_congr hfc pos, colCnt_congr hfc k, hg] at h2
          have h2b : colCnt (cellsSet (setCellPrep s pos) pos none) k
              + (if nonEmptyB (some c) && decide (pos.col = k) then 1 else 0)
              = colCnt s k := h2
          have hle := oldC_le_colCnt s pos k
          rw [hg] at hle
          simp only [Option.getD_some] at hle
          omega
        · intro R p' hp
          obtain ⟨hmem, hnp⟩ := hfdm R p' hp
          obtain ⟨ast, ca, hcell, hRr⟩ := hdi0 R p' hmem
          refine ⟨ast, ca, ?_, hRr⟩
          show cellsGet (cellsSet (setCellPrep s pos) pos none) p'
            = some (some (.formula ast ca))
          rw [cellsGet_cellsSet_ne _ _ _ _ hnp, cellsGet_congr hfc]
          exact hcell

theorem sheetInv_empty : SheetInv sheetEmpty := by
  refine ⟨?_, ⟨⟨?_, ?_⟩, ⟨?_, ?_⟩, ?_, ?_⟩, ?_, ?_⟩
  · exact List.nodup_nil
  · exact List.nodup_nil
  · intro e he; exact absurd he (List.not_mem_nil e)
  · exact List.nodup_nil
  · intro e he; exact absurd he (List.not_mem_nil e)
  · intro r; rfl
  · intro k; rfl
  · intro R; exact List.nodup_nil
  · intro R p hp; exact absurd hp (List.not_mem_nil p)

theorem reachable_sheetInv {s : SheetState} (h : ReachableS s) : SheetInv s := by
  induction h with
  | init => exact sheetInv_empty
  | set hr hok ih => exact setCell_inv ih hok
  | clear hr hok ih => exact clearCell_inv ih hok
  | read hr hg ih => exact sheetInv_skel (cellValue_skel _ _ _ _) ih

theorem rowCnt_pos_elim {s : SheetState} {r : Int} (hW : CellsWF s) (h : 1 ≤ rowCnt s r) :
    ∃ p c, cellsGet s p = some (some c) ∧ c.isEmpty = false ∧ p.row = r := by
  unfold rowCnt at h
  rw [Nat.succ_le, List.countP_pos] at h
  obtain ⟨⟨p, oc⟩, hmem, hpred⟩ := h
  simp only [Bool.and_eq_true, decide_eq_true_eq] at hpred
  obtain ⟨hne, hr⟩ := hpred
  cases oc with
  | none => simp [nonEmptyB] at hne
  | some c =>
    refine ⟨p, c, assocGet_of_mem_nodup hW hmem, ?_, hr⟩
    simpa [nonEmptyB] using hne

theorem colCnt_pos_elim {s : SheetState} {k : Int} (hW : CellsWF s) (h : 1 ≤ colCnt s k) :
    ∃ p c, cellsGet s p = some (some c) ∧ c.isEmpty = false ∧ p.col = k := by
  unfold colCnt at h
  rw [Nat.succ_le, List.countP_pos] at h
  obtain ⟨⟨p, oc⟩, hmem, hpred⟩ := h
  simp only [Bool.and_eq_true, decide_eq_true_eq] at hpred
  obtain ⟨hne, hk⟩ := hpred
  cases oc with
  | none => simp [nonEmptyB] at hne
  | some c =>
    refine ⟨p, c, assocGet_of_mem_nodup hW hmem, ?_, hk⟩
    simpa [nonEmptyB] using hne

/-- C5 counterexample: the spec's scenario value is wrong.  `set_cell(B2, "x")`
on a fresh sheet yields printable size `{2, 2}` (B2 is row index 1, column
index 1, so both axes report `1 + 1 = 2`), not the claimed `{2, 3}`. -/
theorem C5_counterexample :
    setCell sheetEmpty pB2 "x" = .ok c5s1 ∧
    getPrintableSize c5s1 = ⟨2, 2⟩ ∧ ¬ getPrintableSize c5s1 = ⟨2, 3⟩ := by
  decide

/-- C5 (amended): in every state reachable through the public operations the
printable-area tracker stores, per row and column index, exactly the number of
non-Empty stored cells there, and `GetPrintableSize` is the tightest rectangle
anchored at `(0,0)` covering the non-Empty cells: every non-Empty cell lies
inside it, and each positive axis value is attained by some non-Empty cell.
On the spec's scenario the sizes are `{0,0}`, then `{2,2}` after
`set_cell(B2, "x")` (not the spec's `{2,3}`), then `{0,0}` after
`clear_cell(B2)`. -/
theorem C5_area_tracks_content :
    (∀ s : SheetState, ReachableS s →
      ((∀ r : Int, cntVal s.area.rows r = rowCnt s r) ∧
       (∀ k : Int, cntVal s.area.cols k = colCnt s k)) ∧
      (∀ p c, cellsGet s p = some (some c) → c.isEmpty = false →
        p.row < (getPrintableSize s).rows ∧ p.col < (getPrintableSize s).cols) ∧
      ((getPrintableSize s).rows = 0 ∨
        ∃ p c, cellsGet s p = some (some c) ∧ c.isEmpty = false ∧
          (getPrintableSize s).rows = p.row + 1) ∧
      ((getPrintableSize s).cols = 0 ∨
        ∃ p c, cellsGet s p = some (some c) ∧ c.isEmpty = false ∧
          (getPrintableSize s).cols = p.col + 1)) ∧
    getPrintableSize sheetEmpty = ⟨0, 0⟩ ∧
    setCell sheetEmpty pB2 "x" = .ok c5s1 ∧ getPrintableSize c5s1 = ⟨2, 2⟩ ∧
    clearCell c5s1 pB2 = .ok c5s2 ∧ getPrintableSize c5s2 = ⟨0, 0⟩ := by
  refine ⟨?_, by decide, by decide, by decide, by decide, by decide⟩
  intro s hr
  obtain ⟨hW, ⟨hwr, hwc, hvr, hvc⟩, _, _⟩ := reachable_sheetInv hr
  refine ⟨⟨hvr, hvc⟩, ?_, ?_, ?_⟩
  · intro p c hg hne
    constructor
    · show p.row < axisSize s.area.rows
      exact axisSize_cover hwr (by rw [hvr]; exact rowCnt_pos hg hne rfl)
    · show p.col < axisSize s.area.cols
      exact axisSize_cover hwc (by rw [hvc]; exact colCnt_pos hg hne rfl)
  · by_cases hrows : s.area.rows = []
    · left
      show axisSize s.area.rows = 0
      rw [hrows]
      rfl
    · right
      obtain ⟨k, n, hmem, hax⟩ := axisSize_tight hrows
      have hcnt : 1 ≤ cntVal s.area.rows k := by
        unfold cntVal
        rw [assocGet_of_mem_nodup hwr.1 hmem]
        exact hwr.2 _ hmem
      rw [hvr k] at hcnt
      obtain ⟨p, c, hg, hne, hpr⟩ := rowCnt_pos_elim hW hcnt
      refine ⟨p, c, hg, hne, ?_⟩
      show axisSize s.area.rows = p.row + 1
      rw [hax, hpr]
  · by_cases hcols : s.area.cols = []
    · left
      show axisSize s.area.cols = 0
      rw [hcols]
      rfl
    · right
      obtain ⟨k, n, hmem, hax⟩ := axisSize_tight hcols
      have hcnt : 1 ≤ cntVal s.area.cols k := by
        unfold cntVal
        rw [assocGet_of_mem_nodup hwc.1 hmem]
        exact hwc.2 _ hmem
      rw [hvc k] at hcnt
      obtain ⟨p, c, hg, hne, hpc⟩ := colCnt_pos_elim hW hcnt
      refine ⟨p, c, hg, hne, ?_⟩
      show axisSize s.area.cols = p.col + 1
      rw [hax, hpc]

/-- C10: in every reachable sheet state, every position in a dependency-graph
node's dependent set maps in the cell map to a present, non-null formula cell
(which is non-Empty), whose referenced cells contain the node's key; hence
`InvalidateCache`'s assertion holds and its dereference of the dependent cell
never hits a null or missing entry. -/
theorem C10_deps_present_formula (s : SheetState) (hr : ReachableS s) (R p : Pos)
    (hp : p ∈ depsGet s R) :
    ∃ ast ca, cellsGet s p = some (some (Cell.formula ast ca)) ∧
      (Cell.formula ast ca).isEmpty = false ∧ R ∈ dedupAdjacent (astCells ast) := by
  obtain ⟨_, _, _, hdi⟩ := reachable_sheetInv hr
  obtain ⟨ast, ca, hcell, hRr⟩ := hdi R p hp
  exact ⟨ast, ca, hcell, rfl, hRr⟩

/-- Witness for C10: after `set_cell(A1, "=B1")` on a fresh sheet, `A1` is in
`B1`'s dependent set and indeed maps to a present formula cell referencing
`B1`. -/
theorem C10_deps_present_formula_witness :
    ∃ ast ca, cellsGet c4s pA1 = some (some (Cell.formula ast ca)) ∧
      (Cell.formula ast ca).isEmpty = false ∧ pB1 ∈ dedupAdjacent (astCells ast) :=
  C10_deps_present_formula c4s
    (@ReachableS.set sheetEmpty c4s pA1 "=B1" ReachableS.init (by decide)) pB1 pA1
    (by decide)

/-- Witness for C5 at the concrete reachable state after `set_cell(B2, "x")`:
the row tracker agrees with the stored-cell count at row 1, and B2 lies
inside the printable rectangle. -/
theorem C5_area_tracks_content_witness :
    cntVal c5s1.area.rows 1 = rowCnt c5s1 1 ∧ 1 < (getPrintableSize c5s1).rows := by
  have h := C5_area_tracks_content.1 c5s1
    (@ReachableS.set sheetEmpty c5s1 pB2 "x" ReachableS.init (by decide))
  exact ⟨h.1.1 1, (h.2.1 pB2 (Cell.text "x") (by decide) (by decide)).1⟩
